import Mathlib

/-!
Verification of the flex slot allocator (src/heap.rs).

The Rust code is shallowly embedded as follows:

* `BTreeMap<Nat, usize>` and `BTreeMap<usize, BTreeSet<Nat>>` become
  association lists sorted strictly by key (`List (Nat × Nat)` respectively
  `List (Nat × List Nat)`, the buckets themselves sorted strictly); every
  state built by the operations keeps these lists sorted, which matches the
  ordered-iteration semantics of the B-trees.
* `u64` and `usize` become `Nat`.  The one `usize` subtraction the source
  performs on unconstrained inputs (`slots - size` in `mark_first`) is
  modelled with truncated `Nat` subtraction; a dedicated theorem shows it
  never underflows on states satisfying the invariants.
* `Vec<u64>` becomes `List Nat`.
* Every operation that can panic (`unwrap`, `assert!`) returns `Option`,
  with `none` marking the panic.
-/

namespace Flex

/- Nat(u64), a slot offset in the logical address space, is modelled as
a plain `Nat` throughout. -/

/-! ### Sorted association lists, modelling `BTreeMap` / `BTreeSet` -/

/-- `BTreeMap::get`: look a key up in an association list. -/
def lookupKey {α : Type} (k : Nat) : List (Nat × α) → Option α
  | [] => none
  | (k', v) :: rest => if k = k' then some v else lookupKey k rest

/-- `BTreeMap::insert` on a key-sorted association list: insert at the sorted
position, replacing an existing entry with the same key. -/
def insertKey {α : Type} (k : Nat) (v : α) : List (Nat × α) → List (Nat × α)
  | [] => [(k, v)]
  | (k', v') :: rest =>
    if k < k' then (k, v) :: (k', v') :: rest
    else if k = k' then (k, v) :: rest
    else (k', v') :: insertKey k v rest

/-- `BTreeMap::remove`: drop the entry with the given key, if present. -/
def eraseKey {α : Type} (k : Nat) : List (Nat × α) → List (Nat × α)
  | [] => []
  | (k', v') :: rest => if k = k' then rest else (k', v') :: eraseKey k rest

/-- `BTreeSet::insert` on a sorted list of pointers (no duplicates). -/
def insertPtr (p : Nat) : List Nat → List Nat
  | [] => [p]
  | q :: rest =>
    if p < q then p :: q :: rest
    else if p = q then q :: rest
    else q :: insertPtr p rest

/-- `iter().rev().next()`: the last entry of a list. -/
def lastEntry {α : Type} : List α → Option α
  | [] => none
  | x :: rest => some ((lastEntry rest).getD x)

/-- `map.range(..k).rev().next()`: the entry with the greatest key `< k`
of a key-sorted association list. -/
def predEntry {α : Type} (k : Nat) : List (Nat × α) → Option (Nat × α)
  | [] => none
  | (k', v) :: rest =>
    if k' < k then some ((predEntry k rest).getD (k', v)) else none

/-- `map.range(k..).next()`: the first entry with key `≥ k`
of a key-sorted association list. -/
def succEntry {α : Type} (k : Nat) : List (Nat × α) → Option (Nat × α)
  | [] => none
  | (k', v) :: rest => if k ≤ k' then some (k', v) else succEntry k rest

/-! ### RangeSet -/

/-- RangeSet: tracks the currently unallocated ranges of slots with two
mirrored indices.  The field `free_map` is named `free` in the source; it is
renamed here so that the method `RangeSet.free` can keep its source name. -/
structure RangeSet where
  capacity : Nat
  /-- by-address index: slots before ↦ length of range (`ranges` in the source). -/
  ranges : List (Nat × Nat)
  /-- by-length index: length ↦ starts of ranges (`free` in the source).
  If an entry size is present in the map, the pointer set must be non-empty. -/
  free_map : List (Nat × List Nat)
deriving Repr, DecidableEq

namespace RangeSet

def new : RangeSet := ⟨0, [], []⟩

/-- Mark a pointer for use, returns the size of the full allocation.
`none` models the panics of `ranges.remove(..).unwrap()` and
`assert!(free.get_mut(..).unwrap().remove(..))`. -/
def mark (rs : RangeSet) (pointer : Nat) : Option (Nat × RangeSet) :=
  match lookupKey pointer rs.ranges with
  | none => none
  | some size =>
    match lookupKey size rs.free_map with
    | none => none
    | some bucket =>
      if pointer ∈ bucket then
        let bucket' := bucket.erase pointer
        let free' :=
          if bucket' = [] then eraseKey size rs.free_map
          else insertKey size bucket' rs.free_map
        some (size, ⟨rs.capacity, eraseKey pointer rs.ranges, free'⟩)
      else none

/-- Insert a pointer into the by-length index bucket for `slots`
(the `free.get_mut` / `free.insert` tail of `RangeSet::free`). -/
def insertBucket (slots : Nat) (pointer : Nat)
    (free : List (Nat × List Nat)) : List (Nat × List Nat) :=
  match lookupKey slots free with
  | some s => insertKey slots (insertPtr pointer s) free
  | none => insertKey slots [pointer] free

/-- The coalescing phase of `RangeSet::free`: merge the released range with
the free range immediately before it and then with the free range immediately
after it, whenever they are back-to-back.  Returns the merged
`(pointer, slots)` and the state with the absorbed neighbours removed. -/
def free_merge (rs : RangeSet) (pointer : Nat) (slots : Nat) :
    Option (Nat × Nat × RangeSet) :=
  -- start with the range before
  let step1 : Option (Nat × Nat × RangeSet) :=
    match predEntry pointer rs.ranges with
    | some (pointer_before, size) =>
      -- if the free ranges are back-to-back, we merge them
      if pointer_before + size = pointer then
        match rs.mark pointer_before with
        | some (_, rs') => some (pointer_before, size + slots, rs')
        | none => none
      else some (pointer, slots, rs)
    | none => some (pointer, slots, rs)
  match step1 with
  | none => none
  | some (pointer, slots, rs) =>
    -- then do the range after
    match succEntry pointer rs.ranges with
    | some (pointer_after, size) =>
      if pointer + slots = pointer_after then
        match rs.mark pointer_after with
        | some (_, rs') => some (pointer, slots + size, rs')
        | none => none
      else some (pointer, slots, rs)
    | none => some (pointer, slots, rs)

/-- `RangeSet::free`: release `[pointer, pointer+slots)` back to the free
set, coalescing with neighbours; returns the capacity that the heap can be
shrunk by if freeing a tail allocation.  `none` models the panic of
`assert!(ranges.insert(pointer, slots).is_none())`. -/
def free (rs : RangeSet) (pointer : Nat) (slots : Nat) :
    Option (Nat × RangeSet) :=
  match free_merge rs pointer slots with
  | none => none
  | some (pointer, slots, rs) =>
    -- if this is a tail free, reduce the size of the heap
    if pointer + slots = rs.capacity then
      some (slots, ⟨rs.capacity - slots, rs.ranges, rs.free_map⟩)
    else
      match lookupKey pointer rs.ranges with
      | some _ => none
      | none =>
        some (0, ⟨rs.capacity, insertKey pointer slots rs.ranges,
                  insertBucket slots pointer rs.free_map⟩)

/-- `RangeSet::mark_smaller`: mark a pointer for use reserving `slots` slots,
returning the extra free space at its end to the heap.  `none` models the
panic of `assert!(slots < size)` and the panics inside `mark`/`free`. -/
def mark_smaller (rs : RangeSet) (pointer : Nat) (slots : Nat) :
    Option RangeSet :=
  match rs.mark pointer with
  | none => none
  | some (size, rs') =>
    if size = slots then some rs'
    else if slots < size then
      -- the returned shrink amount is discarded by the source
      match rs'.free (pointer + slots) (size - slots) with
      | some (_, rs'') => some rs''
      | none => none
    else none

/-- `RangeSet::mark_first`: find a place for `slots` slots, returning the
pointer and the size to increase the backing allocation by.  The source
computes `slots - size` with `usize` subtraction; it is modelled with
truncated `Nat` subtraction, and the development proves it never underflows
on states satisfying the invariants. -/
def mark_first (rs : RangeSet) (slots : Nat) :
    Option ((Nat × Nat) × RangeSet) :=
  -- try filling the smallest earliest gap possible
  match succEntry slots rs.free_map with
  | some (_, potential) =>
    match potential.head? with
    | none => none     -- `potential.iter().next().unwrap()` on an empty bucket
    | some pointer =>
      match rs.mark_smaller pointer slots with
      | some rs' => some ((pointer, 0), rs')
      | none => none
  | none =>
    -- if the last range is a tail range, try extending it
    let append : Option ((Nat × Nat) × RangeSet) :=
      some ((rs.capacity, slots), ⟨rs.capacity + slots, rs.ranges, rs.free_map⟩)
    match lastEntry rs.ranges with
    | some (tail, size) =>
      if tail + size = rs.capacity then
        match rs.mark tail with
        | some (_, rs') =>
          let remaining := slots - size
          some ((tail, remaining),
                ⟨rs'.capacity + remaining, rs'.ranges, rs'.free_map⟩)
        | none => none
      else append
    | none => append

/-- `RangeSet::add_free_capacity`: extend the address space by `slots` at the
current tail, marking the new region free before incrementing `capacity`. -/
def add_free_capacity (rs : RangeSet) (slots : Nat) : Option RangeSet :=
  match rs.free rs.capacity slots with
  | some (_, rs') => some ⟨rs'.capacity + slots, rs'.ranges, rs'.free_map⟩
  | none => none

/-- `RangeSet::new_with_free_capacity`. -/
def new_with_free_capacity (slots : Nat) : Option RangeSet :=
  RangeSet.new.add_free_capacity slots

end RangeSet

/-! ### Heap -/

/-- Heap: the backing storage plus one RangeSet.  The field `free_set` is
named `free` in the source; it is renamed here so that the method
`Heap.free` can keep its source name. -/
structure Heap where
  data : List Nat
  free_set : RangeSet
deriving Repr, DecidableEq

namespace Heap

/-- `Heap::new`: constructs new empty heap. -/
def new : Heap := ⟨[], RangeSet.new⟩

/-- `Heap::alloc`: allocate a pointer of a given size, growing the backing
storage by the extra capacity reported by `mark_first` (zero-initialised,
matching `extend((0..extra).map(|_| 0))`). -/
def alloc (h : Heap) (slots : Nat) : Option (Nat × Heap) :=
  match h.free_set.mark_first slots with
  | some ((pointer, extra_capacity), rs') =>
    some (pointer, ⟨h.data ++ List.replicate extra_capacity 0, rs'⟩)
  | none => none

/-- `Heap::is_free`: whether a pointer of a given size is free at a given
point; `ranges.range(..=pointer)` is the set of keys `< pointer + 1`. -/
def is_free (h : Heap) (pointer : Nat) (slots : Nat) : Bool :=
  match predEntry (pointer + 1) h.free_set.ranges with
  | some (p, free_range) => decide (pointer + slots ≤ p + free_range)
  | none => false

/-- `Heap::free`: delegate to `RangeSet::free` and truncate the backing
storage by the reported unneeded capacity. -/
def free (h : Heap) (pointer : Nat) (slots : Nat) : Option Heap :=
  match h.free_set.free pointer slots with
  | some (unneeded_capacity, rs') =>
    some ⟨h.data.take (h.data.length - unneeded_capacity), rs'⟩
  | none => none

/-- The copy loop of `Heap::realloc`:
`for slot in 0..old { data[new + slot] = data[pointer + slot] }`.
Rust indexing panics out of bounds; `List.set`/`getD` are total, and every
use in this development stays in bounds. -/
def copy_slots (data : List Nat) (src dst n : Nat) : List Nat :=
  (List.range n).foldl (fun d slot => d.set (dst + slot) (d.getD (src + slot) 0)) data

/-- `Heap::realloc`: reallocate an allocation to a new size, in place when
the slots just after it are free, otherwise by moving it. -/
def realloc (h : Heap) (pointer : Nat) (old new : Nat) :
    Option (Nat × Heap) :=
  if old < new then
    -- try allocation continuously
    let tail : Nat := pointer + old
    if h.is_free tail (new - old) then
      match h.free_set.mark_smaller tail (new - old) with
      | some rs' => some (pointer, ⟨h.data, rs'⟩)
      | none => none
    else
      -- reallocate new larger allocation, copy over data, free the old one
      match h.alloc new with
      | some (new_pointer, h') =>
        match Heap.free ⟨copy_slots h'.data pointer new_pointer old, h'.free_set⟩
            pointer old with
        | some h'' => some (new_pointer, h'')
        | none => none
      | none => none
  else if new < old then
    -- free back half of allocation
    match h.free (pointer + new) (old - new) with
    | some h' => some (pointer, h')
    | none => none
  else
    -- they're equal, so do nothing
    some (pointer, h)

/-- `Heap::read_slot`: read a single slot relative to a pointer;
`none` models the out-of-bounds indexing panic. -/
def read_slot (h : Heap) (pointer : Nat) (slot : Nat) : Option Nat :=
  h.data.get? (pointer + slot)

/-- `Heap::read`: read a range of data; `none` models the out-of-bounds
slicing panic. -/
def read (h : Heap) (pointer : Nat) (slots : Nat) : Option (List Nat) :=
  if pointer + slots ≤ h.data.length then
    some ((h.data.drop pointer).take slots)
  else none

end Heap

/-! ### Invariants and reachability -/

/-- A key-sorted association list (the representation invariant of an
iterated `BTreeMap`). -/
def sortedKeys {α : Type} (l : List (Nat × α)) : Prop :=
  l.Pairwise (fun x y => x.1 < y.1)

/-- The bucket of the by-length index for a given length. -/
def RangeSet.bucketOf (rs : RangeSet) (size : Nat) : List Nat :=
  (lookupKey size rs.free_map).getD []

/-- The RangeSet representation invariants: both indices are sorted, they
mirror each other exactly, no bucket is empty, free ranges are disjoint and
non-adjacent, in bounds, and non-empty. -/
structure RangeSet.Inv (rs : RangeSet) : Prop where
  ranges_sorted : sortedKeys rs.ranges
  free_sorted : sortedKeys rs.free_map
  buckets_sorted : ∀ b ∈ rs.free_map, b.2.Pairwise (· < ·)
  buckets_ne : ∀ b ∈ rs.free_map, b.2 ≠ []
  mirror_rf : ∀ e ∈ rs.ranges, e.1 ∈ rs.bucketOf e.2
  mirror_fr : ∀ b ∈ rs.free_map, ∀ p ∈ b.2, (p, b.1) ∈ rs.ranges
  no_adj : ∀ x ∈ rs.ranges, ∀ y ∈ rs.ranges, x.1 < y.1 → x.1 + x.2 < y.1
  bounded : ∀ e ∈ rs.ranges, e.1 + e.2 ≤ rs.capacity
  pos : ∀ e ∈ rs.ranges, 0 < e.2

/-- No tracked free range ends exactly at the capacity boundary (this holds
for every RangeSet owned by a Heap, see claim C9). -/
def RangeSet.noTail (rs : RangeSet) : Prop :=
  ∀ e ∈ rs.ranges, e.1 + e.2 < rs.capacity

/-- An address is covered by some tracked free range. -/
def RangeSet.freeAddr (rs : RangeSet) (x : Nat) : Prop :=
  ∃ e ∈ rs.ranges, e.1 ≤ x ∧ x < e.1 + e.2

/-- An address inside the managed space that no free range covers:
allocated space is the complement of the free ranges. -/
def RangeSet.allocAddr (rs : RangeSet) (x : Nat) : Prop :=
  x < rs.capacity ∧ ¬ rs.freeAddr x

/-- The region `[p, p+s)` overlaps no tracked free range. -/
def RangeSet.disjointFromRanges (rs : RangeSet) (p s : Nat) : Prop :=
  ∀ e ∈ rs.ranges, p + s ≤ e.1 ∨ e.1 + e.2 ≤ p

/-- Precondition of `Heap::free` (section 6 of the spec): `pointer + slots`
names a currently-allocated region. -/
def Heap.ValidFree (h : Heap) (pointer slots : Nat) : Prop :=
  0 < slots ∧ pointer + slots ≤ h.free_set.capacity ∧
    h.free_set.disjointFromRanges pointer slots

/-- Precondition of `Heap::realloc`: `pointer + old` names a
currently-allocated region, and sizes are positive. -/
def Heap.ValidRealloc (h : Heap) (pointer old new : Nat) : Prop :=
  0 < old ∧ 0 < new ∧ pointer + old ≤ h.free_set.capacity ∧
    h.free_set.disjointFromRanges pointer old

/-- Heap states reachable from `Heap::new` by the public operations with
their documented preconditions (spec section 6). -/
inductive Heap.Reachable : Heap → Prop where
  | base : Heap.Reachable Heap.new
  | alloc {h n p h'} : Heap.Reachable h → 0 < n →
      h.alloc n = some (p, h') → Heap.Reachable h'
  | free {h p s h'} : Heap.Reachable h → h.ValidFree p s →
      h.free p s = some h' → Heap.Reachable h'
  | realloc {h p o n q h'} : Heap.Reachable h → h.ValidRealloc p o n →
      h.realloc p o n = some (q, h') → Heap.Reachable h'

/-- RangeSet states reachable from `RangeSet::new` by the public operations
with their documented preconditions: `mark_smaller` requires a currently
free pointer and a request within its size, `free` requires a region inside
the capacity that overlaps no free range. -/
inductive RangeSet.Reach : RangeSet → Prop where
  | base : RangeSet.Reach RangeSet.new
  | add_cap {rs s rs'} : RangeSet.Reach rs →
      rs.add_free_capacity s = some rs' → RangeSet.Reach rs'
  | mk_first {rs n r rs'} : RangeSet.Reach rs →
      rs.mark_first n = some (r, rs') → RangeSet.Reach rs'
  | mk_smaller {rs p l n rs'} : RangeSet.Reach rs → (p, l) ∈ rs.ranges →
      n ≤ l → rs.mark_smaller p n = some rs' → RangeSet.Reach rs'
  | free_op {rs p s r rs'} : RangeSet.Reach rs → 0 < s →
      p + s ≤ rs.capacity → rs.disjointFromRanges p s →
      rs.free p s = some (r, rs') → RangeSet.Reach rs'

/-- The Heap representation invariant: the RangeSet invariants, no tail free
range, and backing storage length equal to the capacity. -/
structure Heap.Inv (h : Heap) : Prop where
  rinv : h.free_set.Inv
  no_tail : h.free_set.noTail
  len_eq : h.data.length = h.free_set.capacity

/-! ### Concrete scenarios from the spec (section 8) -/

/-- The in-place growth scenario: alloc(10), alloc(5), free of the second,
then realloc of the first from 10 to 15 slots. -/
def c1_scenario : Option (Nat × Heap) := do
  let (p1, h) ← Heap.new.alloc 10
  let (p2, h) ← h.alloc 5
  let h ← h.free p2 5
  h.realloc p1 10 15

/-- The same scenario with a third allocation pinning the tail, so that the
freed 5-slot range is interior rather than a tail range. -/
def c1_blocked_scenario : Option (Nat × Heap) := do
  let (p1, h) ← Heap.new.alloc 10
  let (p2, h) ← h.alloc 5
  let (_, h) ← h.alloc 1
  let h ← h.free p2 5
  h.realloc p1 10 15

/-- The intermediate state of the scenario just after `free(P2, 5)`. -/
def c1_after_free : Option Heap := do
  let (_, h) ← Heap.new.alloc 10
  let (p2, h) ← h.alloc 5
  h.free p2 5

/-- Freeing a live 10-slot allocation with the wrong size 5. -/
def c2_scenario : Option Heap := do
  let (p1, h) ← Heap.new.alloc 10
  h.free p1 5

/-- Tail shrink scenario: allocate a region filling the entire capacity,
then free it with the same size. -/
def c4_scenario : Option Heap := do
  let (p1, h) ← Heap.new.alloc 10
  h.free p1 10

/-- The state produced by a successful `RangeSet::mark` (used to state the
lemmas about `mark`): the range is removed from the by-address index and its
start from the by-length bucket, the bucket being dropped when it empties. -/
def RangeSet.markState (rs : RangeSet) (pointer : Nat) (size : Nat) :
    RangeSet :=
  ⟨rs.capacity, eraseKey pointer rs.ranges,
   if (rs.bucketOf size).erase pointer = [] then eraseKey size rs.free_map
   else insertKey size ((rs.bucketOf size).erase pointer) rs.free_map⟩

/-! ## Lemmas on the sorted association lists -/

section Assoc

variable {α : Type}

theorem mem_of_lookupKey {k : Nat} {v : α} {l : List (Nat × α)}
    (h : lookupKey k l = some v) : (k, v) ∈ l := by
  induction l with
  | nil => simp [lookupKey] at h
  | cons x rest ih =>
    obtain ⟨k', v'⟩ := x
    simp only [lookupKey] at h
    split at h
    · next heq =>
      subst heq
      injection h with h
      subst h
      exact List.mem_cons_self _ _
    · exact List.mem_cons_of_mem _ (ih h)

theorem lookupKey_eq_some_of_mem {k : Nat} {v : α} {l : List (Nat × α)}
    (hs : sortedKeys l) (hm : (k, v) ∈ l) : lookupKey k l = some v := by
  induction l with
  | nil => simp at hm
  | cons x rest ih =>
    obtain ⟨k', v'⟩ := x
    obtain ⟨hhd, htl⟩ := List.pairwise_cons.mp hs
    rcases List.mem_cons.mp hm with h | h
    · obtain ⟨h1, h2⟩ := Prod.mk.injEq .. ▸ h
      simp [lookupKey, h1, h2]
    · have hk : k' < k := hhd (k, v) h
      have hne : k ≠ k' := by omega
      simpa [lookupKey, hne] using ih htl h

theorem lookupKey_eq_none {k : Nat} {l : List (Nat × α)} :
    lookupKey k l = none ↔ ∀ e ∈ l, e.1 ≠ k := by
  induction l with
  | nil => simp [lookupKey]
  | cons x rest ih =>
    obtain ⟨k', v'⟩ := x
    by_cases hk : k = k'
    · subst hk
      constructor
      · intro h
        simp [lookupKey] at h
      · intro h
        exact absurd rfl (h (k, v') (List.mem_cons_self _ _))
    · rw [lookupKey, if_neg hk]
      constructor
      · intro h e he
        rcases List.mem_cons.mp he with he | he
        · rw [he]
          exact fun hc => hk hc.symm
        · exact ih.mp h e he
      · intro h
        exact ih.mpr fun e he => h e (List.mem_cons_of_mem _ he)

theorem lookupKey_insertKey_self {k : Nat} {v : α} {l : List (Nat × α)} :
    lookupKey k (insertKey k v l) = some v := by
  induction l with
  | nil => simp [insertKey, lookupKey]
  | cons x rest ih =>
    obtain ⟨k', v'⟩ := x
    rcases Nat.lt_trichotomy k k' with h | h | h
    · simp [insertKey, h, lookupKey]
    · simp [insertKey, h, Nat.lt_irrefl, lookupKey]
    · have h1 : ¬ k < k' := by omega
      have h2 : k ≠ k' := by omega
      simpa [insertKey, h1, h2, lookupKey] using ih

theorem lookupKey_insertKey_ne {k k' : Nat} {v : α} {l : List (Nat × α)}
    (hne : k ≠ k') : lookupKey k (insertKey k' v l) = lookupKey k l := by
  induction l with
  | nil => simp [insertKey, lookupKey, hne]
  | cons x rest ih =>
    obtain ⟨k'', v''⟩ := x
    rcases Nat.lt_trichotomy k' k'' with h | h | h
    · simp [insertKey, h, lookupKey, hne]
    · subst h
      simp [insertKey, Nat.lt_irrefl, lookupKey, hne]
    · have h1 : ¬ k' < k'' := by omega
      have h2 : k' ≠ k'' := by omega
      by_cases hk : k = k'' <;> simp [insertKey, h1, h2, lookupKey, hk, ih]

theorem eraseKey_sublist {k : Nat} {l : List (Nat × α)} :
    List.Sublist (eraseKey k l) l := by
  induction l with
  | nil => simp [eraseKey]
  | cons x rest ih =>
    obtain ⟨k', v'⟩ := x
    by_cases hk : k = k'
    · simpa [eraseKey, hk] using List.sublist_cons_self _ _
    · simpa [eraseKey, hk] using List.Sublist.cons₂ (k', v') ih

theorem sortedKeys_eraseKey {k : Nat} {l : List (Nat × α)}
    (hs : sortedKeys l) : sortedKeys (eraseKey k l) :=
  hs.sublist eraseKey_sublist

theorem lookupKey_eraseKey_self {k : Nat} {l : List (Nat × α)}
    (hs : sortedKeys l) : lookupKey k (eraseKey k l) = none := by
  induction l with
  | nil => simp [eraseKey, lookupKey]
  | cons x rest ih =>
    obtain ⟨k', v'⟩ := x
    obtain ⟨hhd, htl⟩ := List.pairwise_cons.mp hs
    by_cases hk : k = k'
    · subst hk
      simp only [eraseKey, if_pos rfl]
      exact lookupKey_eq_none.mpr fun e he => by have := hhd e he; omega
    · simpa [eraseKey, hk, lookupKey] using ih htl

theorem lookupKey_eraseKey_ne {k k' : Nat} {l : List (Nat × α)}
    (hne : k ≠ k') : lookupKey k (eraseKey k' l) = lookupKey k l := by
  induction l with
  | nil => simp [eraseKey]
  | cons x rest ih =>
    obtain ⟨k'', v''⟩ := x
    by_cases h1 : k' = k''
    · subst h1
      simp [eraseKey, lookupKey, hne]
    · by_cases h2 : k = k'' <;> simp [eraseKey, h1, lookupKey, h2, ih]

theorem mem_eraseKey {k : Nat} {e : Nat × α} {l : List (Nat × α)}
    (hs : sortedKeys l) : e ∈ eraseKey k l ↔ e ∈ l ∧ e.1 ≠ k := by
  induction l with
  | nil => simp [eraseKey]
  | cons x rest ih =>
    obtain ⟨k', v'⟩ := x
    obtain ⟨hhd, htl⟩ := List.pairwise_cons.mp hs
    by_cases hk : k = k'
    · subst hk
      simp only [eraseKey, if_pos rfl, List.mem_cons]
      constructor
      · intro h
        exact ⟨Or.inr h, by have := hhd e h; omega⟩
      · rintro ⟨h | h, hne⟩
        · exact absurd (by rw [h]) hne
        · exact h
    · simp only [eraseKey, if_neg hk, List.mem_cons, ih htl]
      constructor
      · rintro (h | ⟨h1, h2⟩)
        · exact ⟨Or.inl h, by rw [h]; exact fun hc => hk hc.symm⟩
        · exact ⟨Or.inr h1, h2⟩
      · rintro ⟨h | h, hne⟩
        · exact Or.inl h
        · exact Or.inr ⟨h, hne⟩

theorem mem_insertKey {k : Nat} {v : α} {e : Nat × α} {l : List (Nat × α)}
    (hs : sortedKeys l) :
    e ∈ insertKey k v l ↔ e = (k, v) ∨ (e ∈ l ∧ e.1 ≠ k) := by
  induction l with
  | nil => simp [insertKey]
  | cons x rest ih =>
    obtain ⟨k', v'⟩ := x
    obtain ⟨hhd, htl⟩ := List.pairwise_cons.mp hs
    rcases Nat.lt_trichotomy k k' with h | h | h
    · have hred : insertKey k v ((k', v') :: rest) = (k, v) :: (k', v') :: rest := by
        simp [insertKey, h]
      rw [hred]
      constructor
      · intro he
        rcases List.mem_cons.mp he with he | he
        · exact Or.inl he
        · refine Or.inr ⟨he, ?_⟩
          rcases List.mem_cons.mp he with he' | he'
          · rw [he']; omega
          · have := hhd e he'; omega
      · rintro (he | ⟨he, _⟩)
        · rw [he]; exact List.mem_cons_self _ _
        · exact List.mem_cons_of_mem _ he
    · subst h
      have hred : insertKey k v ((k, v') :: rest) = (k, v) :: rest := by
        simp [insertKey, Nat.lt_irrefl]
      rw [hred]
      constructor
      · intro he
        rcases List.mem_cons.mp he with he | he
        · exact Or.inl he
        · refine Or.inr ⟨List.mem_cons_of_mem _ he, ?_⟩
          have := hhd e he; omega
      · rintro (he | ⟨he, hne⟩)
        · rw [he]; exact List.mem_cons_self _ _
        · rcases List.mem_cons.mp he with he' | he'
          · exact absurd (by rw [he']) hne
          · exact List.mem_cons_of_mem _ he'
    · have h1 : ¬ k < k' := by omega
      have h2 : k ≠ k' := by omega
      have hred : insertKey k v ((k', v') :: rest) = (k', v') :: insertKey k v rest := by
        simp [insertKey, h1, h2]
      rw [hred]
      constructor
      · intro he
        rcases List.mem_cons.mp he with he | he
        · refine Or.inr ⟨by rw [he]; exact List.mem_cons_self _ _, by rw [he]; omega⟩
        · rcases (ih htl).mp he with he' | ⟨he1, he2⟩
          · exact Or.inl he'
          · exact Or.inr ⟨List.mem_cons_of_mem _ he1, he2⟩
      · rintro (he | ⟨he, hne⟩)
        · exact List.mem_cons_of_mem _ ((ih htl).mpr (Or.inl he))
        · rcases List.mem_cons.mp he with he' | he'
          · rw [he']; exact List.mem_cons_self _ _
          · exact List.mem_cons_of_mem _ ((ih htl).mpr (Or.inr ⟨he', hne⟩))

theorem sortedKeys_insertKey {k : Nat} {v : α} {l : List (Nat × α)}
    (hs : sortedKeys l) : sortedKeys (insertKey k v l) := by
  induction l with
  | nil => simp [insertKey, sortedKeys]
  | cons x rest ih =>
    obtain ⟨k', v'⟩ := x
    obtain ⟨hhd, htl⟩ := List.pairwise_cons.mp hs
    rcases Nat.lt_trichotomy k k' with h | h | h
    · have hred : insertKey k v ((k', v') :: rest) = (k, v) :: (k', v') :: rest := by
        simp [insertKey, h]
      rw [hred]
      refine List.pairwise_cons.mpr ⟨?_, hs⟩
      intro e he
      rcases List.mem_cons.mp he with he | he
      · rw [he]; exact h
      · have := hhd e he
        show k < e.1
        omega
    · subst h
      have hred : insertKey k v ((k, v') :: rest) = (k, v) :: rest := by
        simp [insertKey, Nat.lt_irrefl]
      rw [hred]
      refine List.pairwise_cons.mpr ⟨?_, htl⟩
      intro e he
      exact hhd e he
    · have h1 : ¬ k < k' := by omega
      have h2 : k ≠ k' := by omega
      have hred : insertKey k v ((k', v') :: rest) = (k', v') :: insertKey k v rest := by
        simp [insertKey, h1, h2]
      rw [hred]
      refine List.pairwise_cons.mpr ⟨?_, ih htl⟩
      intro e he
      rcases (mem_insertKey htl).mp he with he | ⟨he, _⟩
      · rw [he]
        show k' < k
        omega
      · exact hhd e he

theorem insertKey_prepend {k : Nat} {v : α} {l : List (Nat × α)}
    (h : ∀ e ∈ l, k < e.1) : insertKey k v l = (k, v) :: l := by
  cases l with
  | nil => rfl
  | cons x rest =>
    obtain ⟨k', v'⟩ := x
    have : k < k' := h (k', v') (List.mem_cons_self _ _)
    simp [insertKey, this]

theorem insertKey_cancel_eraseKey {k : Nat} {v : α} {l : List (Nat × α)}
    (hs : sortedKeys l) (hm : (k, v) ∈ l) :
    insertKey k v (eraseKey k l) = l := by
  induction l with
  | nil => simp at hm
  | cons x rest ih =>
    obtain ⟨k', v'⟩ := x
    obtain ⟨hhd, htl⟩ := List.pairwise_cons.mp hs
    by_cases hk : k = k'
    · subst hk
      have hv : v = v' := by
        rcases List.mem_cons.mp hm with h | h
        · exact (Prod.mk.injEq .. ▸ h).2
        · have := hhd (k, v) h; omega
      subst hv
      simp only [eraseKey, if_pos rfl]
      exact insertKey_prepend fun e he => hhd e he
    · have hm' : (k, v) ∈ rest := by
        rcases List.mem_cons.mp hm with h | h
        · exact absurd (Prod.mk.injEq .. ▸ h).1 hk
        · exact h
      have hgt : k' < k := hhd (k, v) hm'
      have h1 : ¬ k < k' := by omega
      simp only [eraseKey, if_neg hk, insertKey, if_neg h1, if_neg hk]
      rw [ih htl hm']

theorem eraseKey_cancel_insertKey {k : Nat} {v : α} {l : List (Nat × α)}
    (hn : lookupKey k l = none) :
    eraseKey k (insertKey k v l) = l := by
  induction l with
  | nil => simp [insertKey, eraseKey]
  | cons x rest ih =>
    obtain ⟨k', v'⟩ := x
    have hk : k ≠ k' := by
      intro hc; subst hc; simp [lookupKey] at hn
    have hn' : lookupKey k rest = none := by
      simpa [lookupKey, hk] using hn
    rcases Nat.lt_trichotomy k k' with h | h | h
    · simp [insertKey, h, eraseKey, hk]
    · exact absurd h hk
    · have h1 : ¬ k < k' := by omega
      simp [insertKey, h1, hk, eraseKey, ih hn']

theorem insertKey_self {k : Nat} {v : α} {l : List (Nat × α)}
    (hs : sortedKeys l) (hm : (k, v) ∈ l) : insertKey k v l = l := by
  induction l with
  | nil => simp at hm
  | cons x rest ih =>
    obtain ⟨k', v'⟩ := x
    obtain ⟨hhd, htl⟩ := List.pairwise_cons.mp hs
    rcases List.mem_cons.mp hm with h | h
    · obtain ⟨h1, h2⟩ := Prod.mk.injEq .. ▸ h
      simp [insertKey, h1, h2, Nat.lt_irrefl]
    · have hgt : k' < k := hhd (k, v) h
      have h1 : ¬ k < k' := by omega
      have h2 : k ≠ k' := by omega
      simp [insertKey, h1, h2, ih htl h]

theorem insertKey_insertKey {k : Nat} {v v' : α} {l : List (Nat × α)} :
    insertKey k v (insertKey k v' l) = insertKey k v l := by
  induction l with
  | nil => simp [insertKey, Nat.lt_irrefl]
  | cons x rest ih =>
    obtain ⟨k', v''⟩ := x
    rcases Nat.lt_trichotomy k k' with h | h | h
    · simp [insertKey, h, Nat.lt_irrefl]
    · subst h
      simp [insertKey, Nat.lt_irrefl]
    · have h1 : ¬ k < k' := by omega
      have h2 : k ≠ k' := by omega
      simp [insertKey, h1, h2, ih]

theorem mem_insertPtr {p a : Nat} {b : List Nat} :
    a ∈ insertPtr p b ↔ a = p ∨ a ∈ b := by
  induction b with
  | nil => simp [insertPtr]
  | cons q rest ih =>
    rcases Nat.lt_trichotomy p q with h | h | h
    · have hred : insertPtr p (q :: rest) = p :: q :: rest := by
        simp [insertPtr, h]
      rw [hred, List.mem_cons]
    · subst h
      have hred : insertPtr p (p :: rest) = p :: rest := by
        simp [insertPtr, Nat.lt_irrefl]
      rw [hred, List.mem_cons]
      tauto
    · have h1 : ¬ p < q := by omega
      have h2 : p ≠ q := by omega
      have hred : insertPtr p (q :: rest) = q :: insertPtr p rest := by
        simp [insertPtr, h1, h2]
      rw [hred, List.mem_cons, ih, List.mem_cons]
      tauto

theorem insertPtr_ne_nil {p : Nat} {b : List Nat} : insertPtr p b ≠ [] := by
  cases b with
  | nil => simp [insertPtr]
  | cons q rest =>
    by_cases h1 : p < q
    · simp [insertPtr, h1]
    · by_cases h2 : p = q <;> simp [insertPtr, h1, h2]

theorem sorted_insertPtr {p : Nat} {b : List Nat}
    (hs : b.Pairwise (· < ·)) : (insertPtr p b).Pairwise (· < ·) := by
  induction b with
  | nil => simp [insertPtr]
  | cons q rest ih =>
    obtain ⟨hhd, htl⟩ := List.pairwise_cons.mp hs
    rcases Nat.lt_trichotomy p q with h | h | h
    · have hred : insertPtr p (q :: rest) = p :: q :: rest := by
        simp [insertPtr, h]
      rw [hred]
      refine List.pairwise_cons.mpr ⟨?_, hs⟩
      intro a ha
      rcases List.mem_cons.mp ha with ha | ha
      · omega
      · have := hhd a ha; omega
    · subst h
      have hred : insertPtr p (p :: rest) = p :: rest := by
        simp [insertPtr, Nat.lt_irrefl]
      rw [hred]
      exact hs
    · have h1 : ¬ p < q := by omega
      have h2 : p ≠ q := by omega
      have hred : insertPtr p (q :: rest) = q :: insertPtr p rest := by
        simp [insertPtr, h1, h2]
      rw [hred]
      refine List.pairwise_cons.mpr ⟨?_, ih htl⟩
      intro a ha
      rcases mem_insertPtr.mp ha with ha | ha
      · omega
      · exact hhd a ha

theorem insertPtr_prepend {p : Nat} {b : List Nat}
    (h : ∀ a ∈ b, p < a) : insertPtr p b = p :: b := by
  cases b with
  | nil => rfl
  | cons q rest =>
    have : p < q := h q (List.mem_cons_self _ _)
    simp [insertPtr, this]

theorem insertPtr_cancel_erase {p : Nat} {b : List Nat}
    (hs : b.Pairwise (· < ·)) (hm : p ∈ b) : insertPtr p (b.erase p) = b := by
  induction b with
  | nil => simp at hm
  | cons q rest ih =>
    obtain ⟨hhd, htl⟩ := List.pairwise_cons.mp hs
    by_cases hq : q = p
    · subst hq
      rw [List.erase_cons_head]
      exact insertPtr_prepend hhd
    · have hm' : p ∈ rest := by
        rcases List.mem_cons.mp hm with h | h
        · exact absurd h.symm hq
        · exact h
      have hgt : q < p := hhd p hm'
      have h1 : ¬ p < q := by omega
      have h2 : p ≠ q := by omega
      have herase : (q :: rest).erase p = q :: rest.erase p :=
        List.erase_cons_tail (by simp [hq])
      rw [herase]
      have hred : insertPtr p (q :: rest.erase p) = q :: insertPtr p (rest.erase p) := by
        simp [insertPtr, h1, h2]
      rw [hred, ih htl hm']

theorem erase_cancel_insertPtr {p : Nat} {b : List Nat}
    (hn : p ∉ b) : (insertPtr p b).erase p = b := by
  induction b with
  | nil => simp [insertPtr]
  | cons q rest ih =>
    have hq : p ≠ q := fun hc => hn (hc ▸ List.mem_cons_self _ _)
    have hn' : p ∉ rest := fun hc => hn (List.mem_cons_of_mem _ hc)
    rcases Nat.lt_trichotomy p q with h | h | h
    · have hred : insertPtr p (q :: rest) = p :: q :: rest := by
        simp [insertPtr, h]
      rw [hred, List.erase_cons_head]
    · exact absurd h hq
    · have h1 : ¬ p < q := by omega
      have hred : insertPtr p (q :: rest) = q :: insertPtr p rest := by
        simp [insertPtr, h1, hq]
      rw [hred]
      have herase : (q :: insertPtr p rest).erase p = q :: (insertPtr p rest).erase p :=
        List.erase_cons_tail (by simp [Ne.symm hq])
      rw [herase, ih hn']

theorem nodup_of_sorted {b : List Nat} (hs : b.Pairwise (· < ·)) : b.Nodup :=
  hs.imp Nat.ne_of_lt

theorem erase_eq_nil {p : Nat} {b : List Nat} (hs : b.Pairwise (· < ·))
    (hm : p ∈ b) (he : b.erase p = []) : b = [p] := by
  cases b with
  | nil => simp at hm
  | cons q rest =>
    by_cases hq : q = p
    · subst hq
      rw [List.erase_cons_head] at he
      rw [he]
    · have herase : (q :: rest).erase p = q :: rest.erase p :=
        List.erase_cons_tail (by simp [hq])
      rw [herase] at he
      simp at he

theorem predEntry_mem {k : Nat} {e : Nat × α} {l : List (Nat × α)}
    (h : predEntry k l = some e) : e ∈ l ∧ e.1 < k := by
  induction l generalizing e with
  | nil => simp [predEntry] at h
  | cons x rest ih =>
    obtain ⟨k', v⟩ := x
    simp only [predEntry] at h
    split at h
    · next hlt =>
      cases hp : predEntry k rest with
      | none =>
        rw [hp] at h
        simp only [Option.getD_none, Option.some.injEq] at h
        subst h
        exact ⟨List.mem_cons_self _ _, hlt⟩
      | some e' =>
        rw [hp] at h
        simp only [Option.getD_some, Option.some.injEq] at h
        subst h
        obtain ⟨h1, h2⟩ := ih hp
        exact ⟨List.mem_cons_of_mem _ h1, h2⟩
    · simp at h

theorem predEntry_none {k : Nat} {l : List (Nat × α)} (hs : sortedKeys l)
    (h : predEntry k l = none) : ∀ f ∈ l, ¬ f.1 < k := by
  cases l with
  | nil => simp
  | cons x rest =>
    obtain ⟨k', v⟩ := x
    obtain ⟨hhd, _⟩ := List.pairwise_cons.mp hs
    simp only [predEntry] at h
    split at h
    · simp at h
    · next hge =>
      intro f hf
      rcases List.mem_cons.mp hf with hf | hf
      · rw [hf]; exact hge
      · have := hhd f hf; omega

theorem predEntry_max {k : Nat} {e : Nat × α} {l : List (Nat × α)}
    (hs : sortedKeys l) (h : predEntry k l = some e) :
    ∀ f ∈ l, f.1 < k → f.1 ≤ e.1 := by
  induction l generalizing e with
  | nil => simp
  | cons x rest ih =>
    obtain ⟨k', v⟩ := x
    obtain ⟨hhd, htl⟩ := List.pairwise_cons.mp hs
    simp only [predEntry] at h
    split at h
    · next hlt =>
      intro f hf hfk
      cases hp : predEntry k rest with
      | none =>
        rw [hp] at h
        simp only [Option.getD_none, Option.some.injEq] at h
        subst h
        rcases List.mem_cons.mp hf with hf | hf
        · rw [hf]
        · exact absurd hfk (predEntry_none htl hp f hf)
      | some e' =>
        rw [hp] at h
        simp only [Option.getD_some, Option.some.injEq] at h
        subst h
        rcases List.mem_cons.mp hf with hf | hf
        · have he' := predEntry_mem hp
          have := hhd e' he'.1
          rw [hf]; omega
        · exact ih htl hp f hf hfk
    · simp at h

theorem predEntry_isSome {k : Nat} {f : Nat × α} {l : List (Nat × α)}
    (hs : sortedKeys l) (hf : f ∈ l) (hlt : f.1 < k) :
    (predEntry k l).isSome := by
  cases h : predEntry k l with
  | none => exact absurd hlt (predEntry_none hs h f hf)
  | some e => rfl

theorem succEntry_mem {k : Nat} {e : Nat × α} {l : List (Nat × α)}
    (h : succEntry k l = some e) : e ∈ l ∧ k ≤ e.1 := by
  induction l with
  | nil => simp [succEntry] at h
  | cons x rest ih =>
    obtain ⟨k', v⟩ := x
    simp only [succEntry] at h
    split at h
    · next hle =>
      cases h
      exact ⟨List.mem_cons_self _ _, hle⟩
    · obtain ⟨h1, h2⟩ := ih h
      exact ⟨List.mem_cons_of_mem _ h1, h2⟩

theorem succEntry_none {k : Nat} {l : List (Nat × α)}
    (h : succEntry k l = none) : ∀ f ∈ l, f.1 < k := by
  induction l with
  | nil => simp
  | cons x rest ih =>
    obtain ⟨k', v⟩ := x
    simp only [succEntry] at h
    split at h
    · simp at h
    · next hgt =>
      intro f hf
      rcases List.mem_cons.mp hf with hf | hf
      · rw [hf]; omega
      · exact ih h f hf

theorem succEntry_min {k : Nat} {e : Nat × α} {l : List (Nat × α)}
    (hs : sortedKeys l) (h : succEntry k l = some e) :
    ∀ f ∈ l, k ≤ f.1 → e.1 ≤ f.1 := by
  induction l generalizing e with
  | nil => simp
  | cons x rest ih =>
    obtain ⟨k', v⟩ := x
    obtain ⟨hhd, htl⟩ := List.pairwise_cons.mp hs
    simp only [succEntry] at h
    split at h
    · next hle =>
      cases h
      intro f hf _
      rcases List.mem_cons.mp hf with hf | hf
      · rw [hf]
      · have := hhd f hf; simp; omega
    · next hgt =>
      intro f hf hfk
      rcases List.mem_cons.mp hf with hf | hf
      · rw [hf] at hfk; omega
      · exact ih htl h f hf hfk

theorem succEntry_isSome {k : Nat} {f : Nat × α} {l : List (Nat × α)}
    (hf : f ∈ l) (hk : k ≤ f.1) : (succEntry k l).isSome := by
  cases h : succEntry k l with
  | none => have := succEntry_none h f hf; omega
  | some e => rfl

theorem lastEntry_mem {e : α} {l : List α}
    (h : lastEntry l = some e) : e ∈ l := by
  induction l generalizing e with
  | nil => simp [lastEntry] at h
  | cons x rest ih =>
    simp only [lastEntry, Option.some.injEq] at h
    cases hp : lastEntry rest with
    | none =>
      rw [hp] at h
      simp only [Option.getD_none] at h
      subst h
      exact List.mem_cons_self _ _
    | some e' =>
      rw [hp] at h
      simp only [Option.getD_some] at h
      subst h
      exact List.mem_cons_of_mem _ (ih hp)

theorem lastEntry_none {l : List α} (h : lastEntry l = none) : l = [] := by
  cases l with
  | nil => rfl
  | cons x rest => simp [lastEntry] at h

theorem lastEntry_max {e : Nat × α} {l : List (Nat × α)}
    (hs : sortedKeys l) (h : lastEntry l = some e) :
    ∀ f ∈ l, f.1 ≤ e.1 := by
  induction l generalizing e with
  | nil => simp
  | cons x rest ih =>
    obtain ⟨hhd, htl⟩ := List.pairwise_cons.mp hs
    simp only [lastEntry, Option.some.injEq] at h
    cases hp : lastEntry rest with
    | none =>
      rw [hp] at h
      simp only [Option.getD_none] at h
      subst h
      have : rest = [] := lastEntry_none hp
      subst this
      simp
    | some e' =>
      rw [hp] at h
      simp only [Option.getD_some] at h
      subst h
      intro f hf
      rcases List.mem_cons.mp hf with hf | hf
      · subst hf
        have := hhd e' (lastEntry_mem hp)
        omega
      · exact ih htl hp f hf

theorem keyVal_unique {k : Nat} {v v' : α} {l : List (Nat × α)}
    (hs : sortedKeys l) (h1 : (k, v) ∈ l) (h2 : (k, v') ∈ l) : v = v' := by
  have e1 := lookupKey_eq_some_of_mem hs h1
  have e2 := lookupKey_eq_some_of_mem hs h2
  rw [e1] at e2
  exact (Option.some.injEq .. ▸ e2)

end Assoc

/-! ## Lemmas about `RangeSet::mark` -/

namespace RangeSet

theorem Inv.lookup_ranges {rs : RangeSet} {p l : Nat} (hinv : rs.Inv)
    (hm : (p, l) ∈ rs.ranges) : lookupKey p rs.ranges = some l :=
  lookupKey_eq_some_of_mem hinv.ranges_sorted hm

theorem Inv.range_val_unique {rs : RangeSet} {p l l' : Nat} (hinv : rs.Inv)
    (h1 : (p, l) ∈ rs.ranges) (h2 : (p, l') ∈ rs.ranges) : l = l' :=
  keyVal_unique hinv.ranges_sorted h1 h2

theorem Inv.bucketOf_sorted {rs : RangeSet} (hinv : rs.Inv) (s : Nat) :
    (rs.bucketOf s).Pairwise (· < ·) := by
  unfold bucketOf
  cases hlk : lookupKey s rs.free_map with
  | none => simp
  | some b =>
    simpa using hinv.buckets_sorted (s, b) (mem_of_lookupKey hlk)

theorem bucketOf_lookup {rs : RangeSet} {s : Nat} (hne : rs.bucketOf s ≠ []) :
    lookupKey s rs.free_map = some (rs.bucketOf s) := by
  unfold bucketOf at hne ⊢
  cases hlk : lookupKey s rs.free_map with
  | none => rw [hlk] at hne; simp at hne
  | some b => simp

theorem Inv.bucketOf_mem_free {rs : RangeSet} (hinv : rs.Inv) {s : Nat}
    (hne : rs.bucketOf s ≠ []) : (s, rs.bucketOf s) ∈ rs.free_map :=
  mem_of_lookupKey (bucketOf_lookup hne)

theorem Inv.mem_bucketOf {rs : RangeSet} (hinv : rs.Inv) {q s : Nat}
    (hq : q ∈ rs.bucketOf s) : (q, s) ∈ rs.ranges := by
  have hne : rs.bucketOf s ≠ [] := fun hc => by rw [hc] at hq; simp at hq
  exact hinv.mirror_fr _ (hinv.bucketOf_mem_free hne) q hq

/-- Two free ranges covering the same address are the same range. -/
theorem Inv.cover_unique {rs : RangeSet} (hinv : rs.Inv) {e f : Nat × Nat}
    {x : Nat} (he : e ∈ rs.ranges) (hf : f ∈ rs.ranges)
    (hex : e.1 ≤ x ∧ x < e.1 + e.2) (hfx : f.1 ≤ x ∧ x < f.1 + f.2) :
    e = f := by
  obtain ⟨p, l⟩ := e
  obtain ⟨p', l'⟩ := f
  have hex' : p ≤ x ∧ x < p + l := hex
  have hfx' : p' ≤ x ∧ x < p' + l' := hfx
  rcases Nat.lt_trichotomy p p' with h | h | h
  · have hadj : p + l < p' := hinv.no_adj _ he _ hf h
    exfalso
    omega
  · subst h
    have := hinv.range_val_unique he hf
    rw [this]
  · have hadj : p' + l' < p := hinv.no_adj _ hf _ he h
    exfalso
    omega

theorem markState_ranges {rs : RangeSet} {p size : Nat} :
    (rs.markState p size).ranges = eraseKey p rs.ranges := rfl

theorem markState_capacity {rs : RangeSet} {p size : Nat} :
    (rs.markState p size).capacity = rs.capacity := rfl

theorem markState_bucketOf_ne {rs : RangeSet} {p size s : Nat}
    (hne : s ≠ size) : (rs.markState p size).bucketOf s = rs.bucketOf s := by
  show (lookupKey s (if (rs.bucketOf size).erase p = [] then
      eraseKey size rs.free_map
      else insertKey size ((rs.bucketOf size).erase p) rs.free_map)).getD [] =
    (lookupKey s rs.free_map).getD []
  by_cases hb : (rs.bucketOf size).erase p = []
  · rw [if_pos hb, lookupKey_eraseKey_ne hne]
  · rw [if_neg hb, lookupKey_insertKey_ne hne]

theorem markState_bucketOf_self {rs : RangeSet} {p size : Nat}
    (hfs : sortedKeys rs.free_map) :
    (rs.markState p size).bucketOf size = (rs.bucketOf size).erase p := by
  show (lookupKey size (if (rs.bucketOf size).erase p = [] then
      eraseKey size rs.free_map
      else insertKey size ((rs.bucketOf size).erase p) rs.free_map)).getD [] =
    (rs.bucketOf size).erase p
  by_cases hb : (rs.bucketOf size).erase p = []
  · rw [if_pos hb, lookupKey_eraseKey_self hfs, hb]
    simp
  · rw [if_neg hb, lookupKey_insertKey_self]
    simp

/-- A successful `mark` computes exactly `markState`. -/
theorem mark_eq {rs : RangeSet} {p size : Nat} (hinv : rs.Inv)
    (hm : (p, size) ∈ rs.ranges) :
    rs.mark p = some (size, rs.markState p size) := by
  have h1 : lookupKey p rs.ranges = some size := hinv.lookup_ranges hm
  have hp : p ∈ rs.bucketOf size := hinv.mirror_rf (p, size) hm
  have hne : rs.bucketOf size ≠ [] := fun hc => by rw [hc] at hp; simp at hp
  have h2 : lookupKey size rs.free_map = some (rs.bucketOf size) :=
    bucketOf_lookup hne
  simp only [mark, h1, h2, if_pos hp]
  rfl

/-- `mark` preserves the invariants. -/
theorem mark_inv {rs : RangeSet} {p size : Nat} (hinv : rs.Inv)
    (hm : (p, size) ∈ rs.ranges) : (rs.markState p size).Inv := by
  have hrs := hinv.ranges_sorted
  have hfs := hinv.free_sorted
  have hbnodup : (rs.bucketOf size).Nodup := nodup_of_sorted (hinv.bucketOf_sorted size)
  constructor
  · exact sortedKeys_eraseKey hrs
  · by_cases hb : (rs.bucketOf size).erase p = [] <;>
      simp only [markState, hb, if_pos, if_neg]
    · simpa [markState, hb] using sortedKeys_eraseKey hfs
    · simpa [markState, hb] using sortedKeys_insertKey hfs
  · intro b hb
    by_cases hc : (rs.bucketOf size).erase p = []
    · simp only [markState, hc, if_pos] at hb
      exact hinv.buckets_sorted b (eraseKey_sublist.subset hb)
    · simp only [markState, hc, if_neg, ite_false] at hb
      rcases (mem_insertKey hfs).mp hb with hb' | ⟨hb', _⟩
      · subst hb'
        exact (hinv.bucketOf_sorted size).sublist (List.erase_sublist _ _)
      · exact hinv.buckets_sorted b hb'
  · intro b hb
    by_cases hc : (rs.bucketOf size).erase p = []
    · simp only [markState, hc, if_pos] at hb
      exact hinv.buckets_ne b (eraseKey_sublist.subset hb)
    · simp only [markState, hc, if_neg, ite_false] at hb
      rcases (mem_insertKey hfs).mp hb with hb' | ⟨hb', _⟩
      · subst hb'; exact hc
      · exact hinv.buckets_ne b hb'
  · intro e he
    rw [markState_ranges, mem_eraseKey hrs] at he
    obtain ⟨he, hep⟩ := he
    by_cases hsz : e.2 = size
    · rw [hsz, markState_bucketOf_self hfs]
      exact (hbnodup.mem_erase_iff).mpr ⟨hep, hsz ▸ hinv.mirror_rf e he⟩
    · rw [markState_bucketOf_ne hsz]
      exact hinv.mirror_rf e he
  · intro b hb q hq
    rw [markState_ranges, mem_eraseKey hrs]
    by_cases hc : (rs.bucketOf size).erase p = []
    · simp only [markState, hc, if_pos] at hb
      have hbF : b ∈ rs.free_map := eraseKey_sublist.subset hb
      have hbs : b.1 ≠ size := ((mem_eraseKey hfs).mp hb).2
      refine ⟨hinv.mirror_fr b hbF q hq, fun hqp => ?_⟩
      subst hqp
      exact hbs (hinv.range_val_unique (hinv.mirror_fr b hbF q hq) hm)
    · simp only [markState, hc, if_neg, ite_false] at hb
      rcases (mem_insertKey hfs).mp hb with hb' | ⟨hbF, hbs⟩
      · subst hb'
        simp only at hq
        obtain ⟨hqp, hq'⟩ := (hbnodup.mem_erase_iff).mp hq
        exact ⟨hinv.mem_bucketOf hq', hqp⟩
      · refine ⟨hinv.mirror_fr b hbF q hq, fun hqp => ?_⟩
        subst hqp
        exact hbs (hinv.range_val_unique (hinv.mirror_fr b hbF q hq) hm)
  · intro x hx y hy
    rw [markState_ranges, mem_eraseKey hrs] at hx hy
    exact hinv.no_adj x hx.1 y hy.1
  · intro e he
    rw [markState_ranges, mem_eraseKey hrs] at he
    exact hinv.bounded e he.1
  · intro e he
    rw [markState_ranges, mem_eraseKey hrs] at he
    exact hinv.pos e he.1

/-- Changing only the capacity preserves the invariants, as long as every
range still fits. -/
theorem cap_change_inv {rs : RangeSet} {C : Nat} (hinv : rs.Inv)
    (hC : ∀ e ∈ rs.ranges, e.1 + e.2 ≤ C) :
    RangeSet.Inv ⟨C, rs.ranges, rs.free_map⟩ := by
  constructor
  · exact hinv.ranges_sorted
  · exact hinv.free_sorted
  · exact hinv.buckets_sorted
  · exact hinv.buckets_ne
  · exact hinv.mirror_rf
  · exact hinv.mirror_fr
  · exact hinv.no_adj
  · exact hC
  · exact hinv.pos

theorem lookup_insertBucket_self {s p : Nat} {F : List (Nat × List Nat)} :
    lookupKey s (insertBucket s p F) =
      some (insertPtr p ((lookupKey s F).getD [])) := by
  unfold insertBucket
  cases hlk : lookupKey s F with
  | none => simp [lookupKey_insertKey_self, insertPtr]
  | some b => simp [lookupKey_insertKey_self]

theorem lookup_insertBucket_ne {s p k : Nat} {F : List (Nat × List Nat)}
    (hne : k ≠ s) : lookupKey k (insertBucket s p F) = lookupKey k F := by
  unfold insertBucket
  cases hlk : lookupKey s F with
  | none => simp [lookupKey_insertKey_ne hne]
  | some b => simp [lookupKey_insertKey_ne hne]

theorem sorted_insertBucket {s p : Nat} {F : List (Nat × List Nat)}
    (hfs : sortedKeys F) : sortedKeys (insertBucket s p F) := by
  unfold insertBucket
  cases lookupKey s F <;> exact sortedKeys_insertKey hfs

theorem mem_insertBucket {s p : Nat} {b : Nat × List Nat}
    {F : List (Nat × List Nat)} (hfs : sortedKeys F)
    (hb : b ∈ insertBucket s p F) :
    (b.1 = s ∧ b.2 = insertPtr p ((lookupKey s F).getD [])) ∨
      (b ∈ F ∧ b.1 ≠ s) := by
  unfold insertBucket at hb
  cases hlk : lookupKey s F with
  | none =>
    rw [hlk] at hb
    rcases (mem_insertKey hfs).mp hb with hb' | hb'
    · left
      rw [hb']
      exact ⟨rfl, by simp [insertPtr]⟩
    · right; exact hb'
  | some bl =>
    rw [hlk] at hb
    rcases (mem_insertKey hfs).mp hb with hb' | hb'
    · left
      rw [hb']
      exact ⟨rfl, by simp⟩
    · right; exact hb'

/-- Inserting a fresh range that is strictly separated from every tracked
range preserves the invariants; `C` is the (possibly enlarged) capacity. -/
theorem insert_inv {rs : RangeSet} {P S C : Nat} (hinv : rs.Inv)
    (hS : 0 < S) (hgap : ∀ e ∈ rs.ranges, e.1 + e.2 < P ∨ P + S < e.1)
    (hcap : rs.capacity ≤ C) (hPS : P + S ≤ C) :
    RangeSet.Inv ⟨C, insertKey P S rs.ranges, insertBucket S P rs.free_map⟩ := by
  have hrs := hinv.ranges_sorted
  have hfs := hinv.free_sorted
  have hPnotkey : ∀ l, (P, l) ∉ rs.ranges := by
    intro l hc
    have hpos : 0 < l := hinv.pos _ hc
    rcases hgap _ hc with h | h
    · have h' : P + l < P := h
      omega
    · have h' : P + S < P := h
      omega
  constructor
  · exact sortedKeys_insertKey hrs
  · exact sorted_insertBucket hfs
  · intro b hb
    rcases mem_insertBucket hfs hb with ⟨_, hb2⟩ | ⟨hbF, _⟩
    · rw [hb2]
      exact sorted_insertPtr (hinv.bucketOf_sorted S)
    · exact hinv.buckets_sorted b hbF
  · intro b hb
    rcases mem_insertBucket hfs hb with ⟨_, hb2⟩ | ⟨hbF, _⟩
    · rw [hb2]; exact insertPtr_ne_nil
    · exact hinv.buckets_ne b hbF
  · intro e he
    rcases (mem_insertKey hrs).mp he with he' | ⟨he', hne⟩
    · subst he'
      show P ∈ RangeSet.bucketOf _ S
      show P ∈ (lookupKey S (insertBucket S P rs.free_map)).getD []
      rw [lookup_insertBucket_self]
      simp [mem_insertPtr]
    · show e.1 ∈ (lookupKey e.2 (insertBucket S P rs.free_map)).getD []
      by_cases hsz : e.2 = S
      · rw [hsz, lookup_insertBucket_self]
        simp only [Option.getD_some]
        rw [mem_insertPtr]
        right
        exact hsz ▸ hinv.mirror_rf e he'
      · rw [lookup_insertBucket_ne hsz]
        exact hinv.mirror_rf e he'
  · intro b hb q hq
    rw [mem_insertKey hrs]
    rcases mem_insertBucket hfs hb with ⟨hb1, hb2⟩ | ⟨hbF, hbs⟩
    · rw [hb2] at hq
      rcases mem_insertPtr.mp hq with hq' | hq'
      · left; rw [hq', hb1]
      · right
        have hbkt : q ∈ rs.bucketOf S := hq'
        have := hinv.mem_bucketOf hbkt
        refine ⟨hb1 ▸ this, ?_⟩
        intro hc
        exact hPnotkey S (hc ▸ this)
    · right
      refine ⟨hinv.mirror_fr b hbF q hq, ?_⟩
      intro hc
      exact hPnotkey b.1 (hc ▸ hinv.mirror_fr b hbF q hq)
  · intro x hx y hy hlt
    obtain ⟨xa, xb⟩ := x
    obtain ⟨ya, yb⟩ := y
    have hlt' : xa < ya := hlt
    show xa + xb < ya
    rcases (mem_insertKey hrs).mp hx with hx' | ⟨hx', _⟩ <;>
      rcases (mem_insertKey hrs).mp hy with hy' | ⟨hy', _⟩
    · obtain ⟨e1, e2⟩ := Prod.mk.injEq .. ▸ hx'
      obtain ⟨f1, f2⟩ := Prod.mk.injEq .. ▸ hy'
      omega
    · obtain ⟨e1, e2⟩ := Prod.mk.injEq .. ▸ hx'
      have hpos : 0 < yb := hinv.pos _ hy'
      rcases hgap _ hy' with h | h
      · have h' : ya + yb < P := h
        omega
      · have h' : P + S < ya := h
        omega
    · obtain ⟨f1, f2⟩ := Prod.mk.injEq .. ▸ hy'
      rcases hgap _ hx' with h | h
      · have h' : xa + xb < P := h
        omega
      · have h' : P + S < xa := h
        omega
    · exact hinv.no_adj _ hx' _ hy' hlt'
  · intro e he
    rcases (mem_insertKey hrs).mp he with he' | ⟨he', _⟩
    · rw [he']; exact hPS
    · exact le_trans (hinv.bounded e he') hcap
  · intro e he
    rcases (mem_insertKey hrs).mp he with he' | ⟨he', _⟩
    · rw [he']; exact hS
    · exact hinv.pos e he'

/-! ## Lemmas about `RangeSet::free` -/

theorem succEntry_pin {l : List (Nat × Nat)} (hs : sortedKeys l) {P : Nat}
    {f : Nat × Nat} (hf : f ∈ l) (hPf : P ≤ f.1)
    (hmin : ∀ e ∈ l, P ≤ e.1 → f.1 ≤ e.1) : succEntry P l = some f := by
  cases hp : succEntry P l with
  | none =>
    have := succEntry_none hp f hf
    omega
  | some e =>
    obtain ⟨hmem, hPe⟩ := succEntry_mem hp
    have h1 : e.1 ≤ f.1 := succEntry_min hs hp f hf hPf
    have h2 : f.1 ≤ e.1 := hmin e hmem hPe
    have hkey : e.1 = f.1 := by omega
    obtain ⟨e1, e2⟩ := e
    obtain ⟨f1, f2⟩ := f
    simp only at hkey
    subst hkey
    have : e2 = f2 := keyVal_unique hs hmem hf
    rw [this]

theorem succEntry_pin_none {l : List (Nat × Nat)} {P : Nat}
    (h : ∀ e ∈ l, e.1 < P) : succEntry P l = none := by
  cases hp : succEntry P l with
  | none => rfl
  | some e =>
    obtain ⟨hmem, hPe⟩ := succEntry_mem hp
    have := h e hmem
    omega

theorem Inv.keys_ne_of_disjoint {rs : RangeSet} {p s : Nat} (hinv : rs.Inv)
    (hs : 0 < s) (hdisj : rs.disjointFromRanges p s) :
    ∀ e ∈ rs.ranges, e.1 ≠ p := by
  intro e he
  have hpos : 0 < e.2 := hinv.pos e he
  rcases hdisj e he with h | h <;> omega

theorem Inv.lookup_none_of_disjoint {rs : RangeSet} {p s : Nat} (hinv : rs.Inv)
    (hs : 0 < s) (hdisj : rs.disjointFromRanges p s) :
    lookupKey p rs.ranges = none :=
  lookupKey_eq_none.mpr (hinv.keys_ne_of_disjoint hs hdisj)

/-- Pin down `predEntry` when some free range ends exactly at `p`. -/
theorem predEntry_of_end_eq {rs : RangeSet} {p a la : Nat} (hinv : rs.Inv)
    (hm : (a, la) ∈ rs.ranges) (hend : a + la = p) :
    predEntry p rs.ranges = some (a, la) := by
  have hla : 0 < la := hinv.pos _ hm
  have halt : a < p := by omega
  have hsome := predEntry_isSome hinv.ranges_sorted hm halt
  cases hp : predEntry p rs.ranges with
  | none => rw [hp] at hsome; simp at hsome
  | some e =>
    obtain ⟨hmem, hlt⟩ := predEntry_mem hp
    have hmax : a ≤ e.1 := predEntry_max hinv.ranges_sorted hp (a, la) hm halt
    obtain ⟨e1, e2⟩ := e
    simp only at hlt hmax
    rcases Nat.lt_or_ge a e1 with h | h
    · have hadj : a + la < e1 := hinv.no_adj _ hm _ hmem h
      omega
    · have he1 : e1 = a := by omega
      subst he1
      have : e2 = la := keyVal_unique hinv.ranges_sorted hmem hm
      rw [this]

/-- The last step of `RangeSet::free` (tail shrink or insertion of the merged
range) succeeds and preserves the invariants; stated over the merged range
`[P, P+S)` and the post-merge state. -/
theorem free_finish {rsm : RangeSet} {P S : Nat} (hinv : rsm.Inv) (hS : 0 < S)
    (hgap : ∀ e ∈ rsm.ranges, e.1 + e.2 < P ∨ P + S < e.1)
    (hPS : P + S ≤ rsm.capacity) :
    ∃ shrink rs',
      (if P + S = rsm.capacity then
        some (S, (⟨rsm.capacity - S, rsm.ranges, rsm.free_map⟩ : RangeSet))
       else
        some (0, (⟨rsm.capacity, insertKey P S rsm.ranges,
                  insertBucket S P rsm.free_map⟩ : RangeSet))) = some (shrink, rs') ∧
      rs'.Inv ∧ rs'.capacity + shrink = rsm.capacity ∧
      ((∀ e ∈ rsm.ranges, e.1 + e.2 < rsm.capacity) → rs'.noTail) ∧
      rs'.ranges = (if P + S = rsm.capacity then rsm.ranges
        else insertKey P S rsm.ranges) ∧
      rs'.capacity = (if P + S = rsm.capacity then rsm.capacity - S
        else rsm.capacity) := by
  by_cases hc : P + S = rsm.capacity
  · refine ⟨S, _, by rw [if_pos hc], ?_, ?_, ?_, by rw [if_pos hc], by rw [if_pos hc]⟩
    · apply cap_change_inv hinv
      intro e he
      rcases hgap e he with h | h
      · omega
      · have hb := hinv.bounded e he
        have hp := hinv.pos e he
        omega
    · show rsm.capacity - S + S = rsm.capacity
      omega
    · intro _ e he
      show e.1 + e.2 < rsm.capacity - S
      rcases hgap e he with h | h
      · omega
      · have hb := hinv.bounded e he
        have hp := hinv.pos e he
        omega
  · refine ⟨0, _, by rw [if_neg hc], ?_, ?_, ?_, by rw [if_neg hc], by rw [if_neg hc]⟩
    · exact insert_inv hinv hS hgap (le_refl _) hPS
    · show rsm.capacity + 0 = rsm.capacity
      omega
    · intro hnt e he
      rcases (mem_insertKey hinv.ranges_sorted).mp he with he' | ⟨he', _⟩
      · rw [he']
        show P + S < rsm.capacity
        omega
      · exact hnt e he'

/-- When the released range has no adjacent free neighbour, `RangeSet::free`
performs no merging: it either shrinks the capacity (tail free) or inserts
the range as-is. -/
theorem free_no_merge_spec {rs : RangeSet} {p s : Nat} (hinv : rs.Inv)
    (hs : 0 < s) (hgap : ∀ e ∈ rs.ranges, e.1 + e.2 < p ∨ p + s < e.1) :
    rs.free p s =
      if p + s = rs.capacity then
        some (s, ⟨rs.capacity - s, rs.ranges, rs.free_map⟩)
      else
        some (0, ⟨rs.capacity, insertKey p s rs.ranges,
                  insertBucket s p rs.free_map⟩) := by
  have hrs := hinv.ranges_sorted
  have hkey : lookupKey p rs.ranges = none := by
    apply lookupKey_eq_none.mpr
    intro e he
    have hpos : 0 < e.2 := hinv.pos e he
    rcases hgap e he with h | h <;> omega
  have hmerge : rs.free_merge p s = some (p, s, rs) := by
    have hnmb : ∀ a la, predEntry p rs.ranges = some (a, la) → ¬ a + la = p := by
      intro a la hpred
      obtain ⟨hmem, hlt⟩ := predEntry_mem hpred
      rcases hgap _ hmem with h | h
      · have h' : a + la < p := h
        omega
      · have h' : p + s < a := h
        have hlt' : a < p := hlt
        omega
    have hnma : ∀ a2 l2, succEntry p rs.ranges = some (a2, l2) → ¬ p + s = a2 := by
      intro a2 l2 hsucc
      obtain ⟨hmem, hge⟩ := succEntry_mem hsucc
      have hpos : 0 < l2 := hinv.pos _ hmem
      rcases hgap _ hmem with h | h
      · have h' : a2 + l2 < p := h
        have hge' : p ≤ a2 := hge
        omega
      · have h' : p + s < a2 := h
        omega
    cases hpred : predEntry p rs.ranges with
    | none =>
      cases hsucc : succEntry p rs.ranges with
      | none => simp only [free_merge, hpred, hsucc]
      | some e =>
        obtain ⟨a2, l2⟩ := e
        simp only [free_merge, hpred, hsucc, if_neg (hnma _ _ hsucc)]
    | some e =>
      obtain ⟨a, la⟩ := e
      cases hsucc : succEntry p rs.ranges with
      | none => simp only [free_merge, hpred, if_neg (hnmb _ _ hpred), hsucc]
      | some e2 =>
        obtain ⟨a2, l2⟩ := e2
        simp only [free_merge, hpred, if_neg (hnmb _ _ hpred), hsucc,
          if_neg (hnma _ _ hsucc)]
  simp only [free, hmerge]
  by_cases hc : p + s = rs.capacity
  · simp only [if_pos hc]
  · simp only [if_neg hc, hkey]

/-- `RangeSet::free` on a valid released region: it succeeds, preserves the
invariants, the capacity shrinks exactly by the returned amount, and no tail
range appears if none was present. -/
theorem free_spec {rs : RangeSet} {p s : Nat} (hinv : rs.Inv) (hs : 0 < s)
    (hcap : p + s ≤ rs.capacity) (hdisj : rs.disjointFromRanges p s) :
    ∃ shrink rs', rs.free p s = some (shrink, rs') ∧ rs'.Inv ∧
      rs'.capacity + shrink = rs.capacity ∧ (rs.noTail → rs'.noTail) := by
  have hrs := hinv.ranges_sorted
  have hkeyne := hinv.keys_ne_of_disjoint hs hdisj
  have hle : ∀ e ∈ rs.ranges, e.1 < p → e.1 + e.2 ≤ p := by
    intro e he h
    rcases hdisj e he with hd | hd
    · omega
    · exact hd
  have hge : ∀ e ∈ rs.ranges, p < e.1 → p + s ≤ e.1 := by
    intro e he h
    have hpos : 0 < e.2 := hinv.pos e he
    rcases hdisj e he with hd | hd
    · exact hd
    · omega
  by_cases hB : ∃ a la, (a, la) ∈ rs.ranges ∧ a + la = p
  · -- a free range `[a, a+la)` ends exactly at `p`: it is absorbed first
    obtain ⟨a, la, hmB, hendB⟩ := hB
    have hla : 0 < la := hinv.pos _ hmB
    have hpred : predEntry p rs.ranges = some (a, la) :=
      predEntry_of_end_eq hinv hmB hendB
    have hm1 : rs.mark a = some (la, rs.markState a la) := mark_eq hinv hmB
    have hinvm : (rs.markState a la).Inv := mark_inv hinv hmB
    have hrsm : sortedKeys (rs.markState a la).ranges := hinvm.ranges_sorted
    have hmaxp : ∀ f ∈ rs.ranges, f.1 < p → f.1 ≤ a :=
      predEntry_max hrs hpred
    by_cases hA : ∃ l2, (p + s, l2) ∈ rs.ranges
    · -- a free range also starts exactly at `p + s`: it is absorbed second
      obtain ⟨l2, hmA⟩ := hA
      have hbnd : p + s + l2 ≤ rs.capacity := hinv.bounded _ hmA
      have hanep : a ≠ p + s := by omega
      have hmA' : (p + s, l2) ∈ (rs.markState a la).ranges := by
        rw [markState_ranges, mem_eraseKey hrs]
        exact ⟨hmA, by simp; omega⟩
      have hsucc : succEntry a (rs.markState a la).ranges = some (p + s, l2) := by
        apply succEntry_pin hrsm hmA' (by simp; omega)
        intro e he _
        rw [markState_ranges, mem_eraseKey hrs] at he
        obtain ⟨heR, hea⟩ := he
        rcases Nat.lt_trichotomy e.1 p with h | h | h
        · have := hmaxp e heR h
          simp only
          omega
        · exact absurd h (hkeyne e heR)
        · have := hge e heR h
          simp only
          omega
      have hcondA : a + (la + s) = p + s := by omega
      have hm2 : (rs.markState a la).mark (p + s) =
          some (l2, (rs.markState a la).markState (p + s) l2) :=
        mark_eq hinvm hmA'
      have hinvm2 : ((rs.markState a la).markState (p + s) l2).Inv :=
        mark_inv hinvm hmA'
      have hPkey :
          lookupKey a ((rs.markState a la).markState (p + s) l2).ranges = none := by
        rw [markState_ranges, markState_ranges, lookupKey_eraseKey_ne hanep]
        exact lookupKey_eraseKey_self hrs
      have hgap2 : ∀ e ∈ ((rs.markState a la).markState (p + s) l2).ranges,
          e.1 + e.2 < a ∨ a + (la + s + l2) < e.1 := by
        intro e he
        rw [markState_ranges, mem_eraseKey hrsm] at he
        obtain ⟨hem, heps⟩ := he
        rw [markState_ranges, mem_eraseKey hrs] at hem
        obtain ⟨heR, hea⟩ := hem
        rcases Nat.lt_trichotomy e.1 p with h | h | h
        · left
          have h1 := hmaxp e heR h
          have h2 : e.1 < a := by omega
          exact hinv.no_adj e heR (a, la) hmB h2
        · exact absurd h (hkeyne e heR)
        · right
          have h1 := hge e heR h
          have h2 : p + s < e.1 := by omega
          have h3 : p + s + l2 < e.1 := hinv.no_adj (p + s, l2) hmA e heR h2
          omega
      have hPS2 : a + (la + s + l2) ≤
          ((rs.markState a la).markState (p + s) l2).capacity := by
        rw [markState_capacity, markState_capacity]
        omega
      have hcomp : rs.free p s =
          (if a + (la + s + l2) =
              ((rs.markState a la).markState (p + s) l2).capacity then
            some (la + s + l2,
              ⟨((rs.markState a la).markState (p + s) l2).capacity - (la + s + l2),
               ((rs.markState a la).markState (p + s) l2).ranges,
               ((rs.markState a la).markState (p + s) l2).free_map⟩)
          else
            some (0,
              ⟨((rs.markState a la).markState (p + s) l2).capacity,
               insertKey a (la + s + l2)
                 ((rs.markState a la).markState (p + s) l2).ranges,
               insertBucket (la + s + l2) a
                 ((rs.markState a la).markState (p + s) l2).free_map⟩)) := by
        simp only [free, free_merge, hpred, if_pos hendB, hm1, hsucc,
          if_pos hcondA, hm2, hPkey]
      obtain ⟨shrink, rs', heq, hinv', hcap', hnt', hr', hcp'⟩ :=
        free_finish hinvm2 (by omega) hgap2 hPS2
      refine ⟨shrink, rs', ?_, hinv', ?_, ?_⟩
      · rw [hcomp]; exact heq
      · rw [markState_capacity, markState_capacity] at hcap'
        exact hcap'
      · intro hnt
        apply hnt'
        intro e he
        rw [markState_ranges, mem_eraseKey hrsm] at he
        obtain ⟨hem, _⟩ := he
        rw [markState_ranges, mem_eraseKey hrs] at hem
        rw [markState_capacity, markState_capacity]
        exact hnt e hem.1
    · -- only the left neighbour is absorbed
      have hcondA : ∀ a2 l2, succEntry a (rs.markState a la).ranges = some (a2, l2) →
          ¬ a + (la + s) = a2 := by
        intro a2 l2 hsucc hc
        obtain ⟨hmem, _⟩ := succEntry_mem hsucc
        rw [markState_ranges, mem_eraseKey hrs] at hmem
        obtain ⟨heR, _⟩ := hmem
        apply hA
        refine ⟨l2, ?_⟩
        have ha2 : a2 = p + s := by omega
        rw [← ha2]
        exact heR
      have hPkey : lookupKey a (rs.markState a la).ranges = none := by
        rw [markState_ranges]
        exact lookupKey_eraseKey_self hrs
      have hgap2 : ∀ e ∈ (rs.markState a la).ranges,
          e.1 + e.2 < a ∨ a + (la + s) < e.1 := by
        intro e he
        rw [markState_ranges, mem_eraseKey hrs] at he
        obtain ⟨heR, hea⟩ := he
        rcases Nat.lt_trichotomy e.1 p with h | h | h
        · left
          have h1 := hmaxp e heR h
          have h2 : e.1 < a := by omega
          exact hinv.no_adj e heR (a, la) hmB h2
        · exact absurd h (hkeyne e heR)
        · right
          have h1 := hge e heR h
          have h2 : ¬ e.1 = p + s := fun hc => hA ⟨e.2, by
            rw [← hc, Prod.mk.eta]; exact heR⟩
          omega
      have hPS2 : a + (la + s) ≤ (rs.markState a la).capacity := by
        rw [markState_capacity]
        omega
      have hcomp : rs.free p s =
          (if a + (la + s) = (rs.markState a la).capacity then
            some (la + s,
              ⟨(rs.markState a la).capacity - (la + s),
               (rs.markState a la).ranges, (rs.markState a la).free_map⟩)
          else
            some (0,
              ⟨(rs.markState a la).capacity,
               insertKey a (la + s) (rs.markState a la).ranges,
               insertBucket (la + s) a (rs.markState a la).free_map⟩)) := by
        cases hsucc : succEntry a (rs.markState a la).ranges with
        | none =>
          simp only [free, free_merge, hpred, if_pos hendB, hm1, hsucc, hPkey]
        | some e2 =>
          obtain ⟨a2, l2⟩ := e2
          have hne2 : ¬ a + (la + s) = a2 := hcondA _ _ hsucc
          simp only [free, free_merge, hpred, if_pos hendB, hm1, hsucc,
            if_neg hne2, hPkey]
      obtain ⟨shrink, rs', heq, hinv', hcap', hnt', hr', hcp'⟩ :=
        free_finish hinvm (by omega) hgap2 hPS2
      refine ⟨shrink, rs', ?_, hinv', ?_, ?_⟩
      · rw [hcomp]; exact heq
      · rw [markState_capacity] at hcap'
        exact hcap'
      · intro hnt
        apply hnt'
        intro e he
        rw [markState_ranges, mem_eraseKey hrs] at he
        rw [markState_capacity]
        exact hnt e he.1
  · by_cases hA : ∃ l2, (p + s, l2) ∈ rs.ranges
    · -- only the right neighbour (starting at `p + s`) is absorbed
      obtain ⟨l2, hmA⟩ := hA
      have hbnd : p + s + l2 ≤ rs.capacity := hinv.bounded _ hmA
      have hmcond : ∀ a la, predEntry p rs.ranges = some (a, la) → ¬ a + la = p := by
        intro a la hp hc
        obtain ⟨hmem, _⟩ := predEntry_mem hp
        exact hB ⟨a, la, hmem, hc⟩
      have hsucc : succEntry p rs.ranges = some (p + s, l2) := by
        apply succEntry_pin hrs hmA (by show p ≤ p + s; omega)
        intro e he hpe
        rcases Nat.lt_trichotomy e.1 p with h | h | h
        · show p + s ≤ e.1
          omega
        · exact absurd h (hkeyne e he)
        · have := hge e he h
          show p + s ≤ e.1
          omega
      have hm2 : rs.mark (p + s) = some (l2, rs.markState (p + s) l2) :=
        mark_eq hinv hmA
      have hinvm : (rs.markState (p + s) l2).Inv := mark_inv hinv hmA
      have hPkey : lookupKey p (rs.markState (p + s) l2).ranges = none := by
        rw [markState_ranges, lookupKey_eraseKey_ne (by omega : p ≠ p + s)]
        exact hinv.lookup_none_of_disjoint hs hdisj
      have hgap2 : ∀ e ∈ (rs.markState (p + s) l2).ranges,
          e.1 + e.2 < p ∨ p + (s + l2) < e.1 := by
        intro e he
        rw [markState_ranges, mem_eraseKey hrs] at he
        obtain ⟨heR, heps⟩ := he
        rcases Nat.lt_trichotomy e.1 p with h | h | h
        · left
          have h1 := hle e heR h
          have h2 : ¬ e.1 + e.2 = p := fun hc => hB ⟨e.1, e.2, by
            rwa [Prod.mk.eta], hc⟩
          omega
        · exact absurd h (hkeyne e heR)
        · right
          have h1 := hge e heR h
          have h2 : p + s < e.1 := by omega
          have h3 : p + s + l2 < e.1 := hinv.no_adj (p + s, l2) hmA e heR h2
          omega
      have hPS2 : p + (s + l2) ≤ (rs.markState (p + s) l2).capacity := by
        rw [markState_capacity]
        omega
      have hcomp : rs.free p s =
          (if p + (s + l2) = (rs.markState (p + s) l2).capacity then
            some (s + l2,
              ⟨(rs.markState (p + s) l2).capacity - (s + l2),
               (rs.markState (p + s) l2).ranges,
               (rs.markState (p + s) l2).free_map⟩)
          else
            some (0,
              ⟨(rs.markState (p + s) l2).capacity,
               insertKey p (s + l2) (rs.markState (p + s) l2).ranges,
               insertBucket (s + l2) p (rs.markState (p + s) l2).free_map⟩)) := by
        cases hpred : predEntry p rs.ranges with
        | none =>
          simp only [free, free_merge, hpred, hsucc, eq_self_iff_true,
            ite_true, hm2, hPkey]
        | some e =>
          obtain ⟨a, la⟩ := e
          have hne : ¬ a + la = p := hmcond _ _ hpred
          simp only [free, free_merge, hpred, if_neg hne, hsucc,
            eq_self_iff_true, ite_true, hm2, hPkey]
      obtain ⟨shrink, rs', heq, hinv', hcap', hnt', hr', hcp'⟩ :=
        free_finish hinvm (by omega) hgap2 hPS2
      refine ⟨shrink, rs', ?_, hinv', ?_, ?_⟩
      · rw [hcomp]; exact heq
      · rw [markState_capacity] at hcap'
        exact hcap'
      · intro hnt
        apply hnt'
        intro e he
        rw [markState_ranges, mem_eraseKey hrs] at he
        rw [markState_capacity]
        exact hnt e he.1
    · -- no adjacent free neighbour on either side: no merging happens
      have hgap : ∀ e ∈ rs.ranges, e.1 + e.2 < p ∨ p + s < e.1 := by
        intro e he
        rcases Nat.lt_trichotomy e.1 p with h | h | h
        · left
          have h1 := hle e he h
          have h2 : ¬ e.1 + e.2 = p := fun hc => hB ⟨e.1, e.2, by
            rwa [Prod.mk.eta], hc⟩
          omega
        · exact absurd h (hkeyne e he)
        · right
          have h1 := hge e he h
          have h2 : ¬ e.1 = p + s := fun hc => hA ⟨e.2, by
            rw [← hc, Prod.mk.eta]; exact he⟩
          omega
      obtain ⟨shrink, rs', heq, hinv', hcap', hnt', hr', hcp'⟩ :=
        free_finish hinv hs hgap hcap
      refine ⟨shrink, rs', ?_, hinv', hcap', ?_⟩
      · rw [free_no_merge_spec hinv hs hgap]
        exact heq
      · exact fun hnt => hnt' hnt

/-! ## Lemmas about `RangeSet::mark_smaller` -/

/-- `RangeSet::mark_smaller` on a currently free pointer with a request
within its size: it succeeds, preserves the invariants, never grows the
capacity, never creates free space, and allocates exactly the requested
prefix `[p, p+n)`. -/
theorem mark_smaller_spec {rs : RangeSet} {p size n : Nat} (hinv : rs.Inv)
    (hm : (p, size) ∈ rs.ranges) (hn : n ≤ size) :
    ∃ rs', rs.mark_smaller p n = some rs' ∧ rs'.Inv ∧
      rs'.capacity ≤ rs.capacity ∧
      (∀ x, rs'.freeAddr x → rs.freeAddr x) ∧
      (∀ x, rs'.allocAddr x ↔ rs.allocAddr x ∨ (p ≤ x ∧ x < p + n)) ∧
      (rs.noTail → rs'.noTail ∧ rs'.capacity = rs.capacity) := by
  have hrs := hinv.ranges_sorted
  have hm1 := mark_eq hinv hm
  have hinvm := mark_inv hinv hm
  have hsize : 0 < size := hinv.pos _ hm
  have hbnd : p + size ≤ rs.capacity := hinv.bounded _ hm
  have hmemiff : ∀ e, e ∈ (rs.markState p size).ranges ↔ e ∈ rs.ranges ∧ e.1 ≠ p := by
    intro e
    rw [markState_ranges, mem_eraseKey hrs]
  by_cases heq : size = n
  · -- exact fit: the whole range is consumed, nothing is given back
    subst heq
    refine ⟨rs.markState p size, ?_, hinvm, ?_, ?_, ?_, ?_⟩
    · simp only [mark_smaller, hm1, eq_self_iff_true, ite_true]
    · rw [markState_capacity]
    · intro x hf
      obtain ⟨e, he, hcov⟩ := hf
      exact ⟨e, ((hmemiff e).mp he).1, hcov⟩
    · intro x
      constructor
      · rintro ⟨hx, hnf⟩
        rw [markState_capacity] at hx
        by_cases hin : p ≤ x ∧ x < p + size
        · exact Or.inr hin
        · refine Or.inl ⟨hx, ?_⟩
          rintro ⟨e, he, hcov⟩
          by_cases hep : e.1 = p
          · have : e = (p, size) := by
              obtain ⟨e1, e2⟩ := e
              simp only at hep
              subst hep
              rw [hinv.range_val_unique he hm]
            rw [this] at hcov
            exact hin ⟨hcov.1, hcov.2⟩
          · exact hnf ⟨e, (hmemiff e).mpr ⟨he, hep⟩, hcov⟩
      · rintro (⟨hx, hnf⟩ | hin)
        · refine ⟨by rw [markState_capacity]; exact hx, ?_⟩
          rintro ⟨e, he, hcov⟩
          exact hnf ⟨e, ((hmemiff e).mp he).1, hcov⟩
        · refine ⟨by rw [markState_capacity]; omega, ?_⟩
          rintro ⟨e, he, hcov⟩
          obtain ⟨heR, hep⟩ := (hmemiff e).mp he
          have : e = (p, size) :=
            hinv.cover_unique heR hm hcov ⟨by omega, by omega⟩
          rw [this] at hep
          exact hep rfl
    · intro hnt
      constructor
      · intro e he
        rw [markState_capacity]
        exact hnt e ((hmemiff e).mp he).1
      · rw [markState_capacity]
  · -- the leftover tail `[p+n, p+size)` is given back via `free`
    have hlt : n < size := by omega
    have hgap : ∀ e ∈ (rs.markState p size).ranges,
        e.1 + e.2 < p + n ∨ p + n + (size - n) < e.1 := by
      intro e he
      obtain ⟨heR, hep⟩ := (hmemiff e).mp he
      rcases Nat.lt_trichotomy e.1 p with h | h | h
      · left
        have := hinv.no_adj e heR (p, size) hm h
        have h' : e.1 + e.2 < p := this
        omega
      · exact absurd h hep
      · right
        have := hinv.no_adj (p, size) hm e heR h
        have h' : p + size < e.1 := this
        omega
    have hfr := free_no_merge_spec hinvm (by omega) hgap
    obtain ⟨shrink, rs', heqf, hinv', hcap', hnt', hr', hcp'⟩ :=
      free_finish hinvm (by omega : 0 < size - n) hgap
        (by rw [markState_capacity]; omega)
    have hcomp : rs.mark_smaller p n = some rs' := by
      simp only [mark_smaller, hm1, if_neg heq, if_pos hlt, hfr, heqf]
    rw [markState_capacity] at hcap' hcp' hr'
    rw [markState_ranges] at hr'
    by_cases hc : p + n + (size - n) = rs.capacity
    · -- the leftover is itself a tail range: the capacity shrinks instead
      rw [if_pos hc] at hr' hcp'
      refine ⟨rs', hcomp, hinv', by omega, ?_, ?_, ?_⟩
      · intro x hf
        obtain ⟨e, he, hcov⟩ := hf
        rw [hr', mem_eraseKey hrs] at he
        exact ⟨e, he.1, hcov⟩
      · intro x
        constructor
        · rintro ⟨hx, hnf⟩
          rw [hcp'] at hx
          by_cases hin : p ≤ x ∧ x < p + n
          · exact Or.inr hin
          · refine Or.inl ⟨by omega, ?_⟩
            rintro ⟨e, he, hcov⟩
            by_cases hep : e.1 = p
            · have : e = (p, size) := by
                obtain ⟨e1, e2⟩ := e
                simp only at hep
                subst hep
                rw [hinv.range_val_unique he hm]
              rw [this] at hcov
              have hc1 : p ≤ x := hcov.1
              have hc2 : x < p + size := hcov.2
              exact hin ⟨hc1, by omega⟩
            · exact hnf ⟨e, by rw [hr', mem_eraseKey hrs]; exact ⟨he, hep⟩, hcov⟩
        · rintro (⟨hx, hnf⟩ | hin)
          · refine ⟨?_, ?_⟩
            · rw [hcp']
              by_contra hcon
              push_neg at hcon
              have hxin : p + n ≤ x := by omega
              exact hnf ⟨(p, size), hm, by constructor <;> omega⟩
            · rintro ⟨e, he, hcov⟩
              rw [hr', mem_eraseKey hrs] at he
              exact hnf ⟨e, he.1, hcov⟩
          · refine ⟨by rw [hcp']; omega, ?_⟩
            rintro ⟨e, he, hcov⟩
            rw [hr', mem_eraseKey hrs] at he
            obtain ⟨heR, hep⟩ := he
            have : e = (p, size) :=
              hinv.cover_unique heR hm hcov ⟨by omega, by omega⟩
            rw [this] at hep
            exact hep rfl
      · intro hnt
        exfalso
        have := hnt (p, size) hm
        have h' : p + size < rs.capacity := this
        omega
    · -- the leftover is interior: it is reinserted as a free range
      rw [if_neg hc] at hr' hcp'
      have hmemiff' : ∀ e, e ∈ rs'.ranges ↔
          (e = (p + n, size - n) ∨ (e ∈ rs.ranges ∧ e.1 ≠ p ∧ e.1 ≠ p + n)) := by
        intro e
        rw [hr', mem_insertKey (sortedKeys_eraseKey hrs), mem_eraseKey hrs]
        constructor
        · rintro (h | ⟨⟨h1, h2⟩, h3⟩)
          · exact Or.inl h
          · exact Or.inr ⟨h1, h2, h3⟩
        · rintro (h | ⟨h1, h2, h3⟩)
          · exact Or.inl h
          · exact Or.inr ⟨⟨h1, h2⟩, h3⟩
      refine ⟨rs', hcomp, hinv', by omega, ?_, ?_, ?_⟩
      · intro x hf
        obtain ⟨e, he, hcov⟩ := hf
        rcases (hmemiff' e).mp he with h | ⟨h1, _⟩
        · rw [h] at hcov
          refine ⟨(p, size), hm, ?_⟩
          have hc1 : p + n ≤ x := hcov.1
          have hc2 : x < p + n + (size - n) := hcov.2
          constructor <;> [skip; skip] <;> simp only <;> omega
        · exact ⟨e, h1, hcov⟩
      · intro x
        constructor
        · rintro ⟨hx, hnf⟩
          rw [hcp'] at hx
          by_cases hin : p ≤ x ∧ x < p + n
          · exact Or.inr hin
          · refine Or.inl ⟨hx, ?_⟩
            rintro ⟨e, he, hcov⟩
            by_cases hep : e.1 = p
            · have : e = (p, size) := by
                obtain ⟨e1, e2⟩ := e
                simp only at hep
                subst hep
                rw [hinv.range_val_unique he hm]
              rw [this] at hcov
              have hc1 : p ≤ x := hcov.1
              have hc2 : x < p + size := hcov.2
              have hxn : p + n ≤ x := by omega
              exact hnf ⟨(p + n, size - n), (hmemiff' _).mpr (Or.inl rfl),
                by constructor <;> simp only <;> omega⟩
            · by_cases hepn : e.1 = p + n
              · exfalso
                obtain ⟨e1, e2⟩ := e
                simp only at hep hepn
                subst hepn
                by_cases hn0 : n = 0
                · exact hep (by omega)
                · have := hinv.no_adj (p, size) hm (p + n, e2) he (by omega)
                  have h' : p + size < p + n := this
                  omega
              · exact hnf ⟨e, (hmemiff' e).mpr (Or.inr ⟨he, hep, hepn⟩), hcov⟩
        · rintro (⟨hx, hnf⟩ | hin)
          · refine ⟨by rw [hcp']; exact hx, ?_⟩
            rintro ⟨e, he, hcov⟩
            rcases (hmemiff' e).mp he with h | ⟨h1, _⟩
            · rw [h] at hcov
              have hc1 : p + n ≤ x := hcov.1
              have hc2 : x < p + n + (size - n) := hcov.2
              exact hnf ⟨(p, size), hm, by constructor <;> simp only <;> omega⟩
            · exact hnf ⟨e, h1, hcov⟩
          · refine ⟨by rw [hcp']; omega, ?_⟩
            rintro ⟨e, he, hcov⟩
            rcases (hmemiff' e).mp he with h | ⟨h1, h2, _⟩
            · rw [h] at hcov
              have hc1 : p + n ≤ x := hcov.1
              omega
            · have heq2 : e = (p, size) :=
                hinv.cover_unique h1 hm hcov ⟨by omega, by omega⟩
              apply h2
              rw [heq2]
      · intro hnt
        have hps : p + size < rs.capacity := hnt (p, size) hm
        constructor
        · intro e he
          rw [hcp']
          rcases (hmemiff' e).mp he with h | ⟨h1, _⟩
          · rw [h]
            show p + n + (size - n) < rs.capacity
            omega
          · exact hnt e h1
        · rw [hcp']

/-! ## Lemmas about `RangeSet::mark_first` -/

/-- The entry found by the tier-1 best-fit search of `mark_first`. -/
theorem tier1_found {rs : RangeSet} {n size : Nat} {bucket : List Nat}
    (hinv : rs.Inv) (hsb : succEntry n rs.free_map = some (size, bucket)) :
    ∃ p0, bucket.head? = some p0 ∧ (p0, size) ∈ rs.ranges ∧ n ≤ size := by
  obtain ⟨hbm, hnsize⟩ := succEntry_mem hsb
  have hbne : bucket ≠ [] := hinv.buckets_ne _ hbm
  cases hbkt : bucket with
  | nil => exact absurd hbkt hbne
  | cons q rest =>
    refine ⟨q, rfl, ?_, hnsize⟩
    have hq : q ∈ bucket := by rw [hbkt]; exact List.mem_cons_self _ _
    exact hinv.mirror_fr _ hbm q hq

/-- `mark_first` preserves the invariants whenever it succeeds. -/
theorem mark_first_inv {rs : RangeSet} {n : Nat} {r : Nat × Nat}
    {rs' : RangeSet} (hinv : rs.Inv) (h : rs.mark_first n = some (r, rs')) :
    rs'.Inv := by
  cases hsb : succEntry n rs.free_map with
  | some e =>
    obtain ⟨size, bucket⟩ := e
    obtain ⟨p0, hhead, hp0r, hnsize⟩ := tier1_found hinv hsb
    obtain ⟨rs'', hms, hinv'', _⟩ := mark_smaller_spec hinv hp0r hnsize
    simp only [mark_first, hsb, hhead, hms, Option.some.injEq] at h
    injection h with h1 h2
    rw [← h2]
    exact hinv''
  | none =>
    cases hlast : lastEntry rs.ranges with
    | none =>
      simp only [mark_first, hsb, hlast, Option.some.injEq] at h
      injection h with h1 h2
      rw [← h2]
      exact cap_change_inv hinv fun e he =>
        le_trans (hinv.bounded e he) (Nat.le_add_right _ _)
    | some e =>
      obtain ⟨tail, size⟩ := e
      have htm : (tail, size) ∈ rs.ranges := lastEntry_mem hlast
      by_cases htail : tail + size = rs.capacity
      · have hm1 := mark_eq hinv htm
        have hinvm := mark_inv hinv htm
        simp only [mark_first, hsb, hlast, if_pos htail, hm1,
          Option.some.injEq] at h
        injection h with h1 h2
        rw [← h2]
        apply cap_change_inv hinvm
        intro e he
        rw [markState_ranges, mem_eraseKey hinv.ranges_sorted] at he
        have := hinv.bounded e he.1
        rw [markState_capacity]
        omega
      · simp only [mark_first, hsb, hlast, if_neg htail, Option.some.injEq] at h
        injection h with h1 h2
        rw [← h2]
        exact cap_change_inv hinv fun e he =>
          le_trans (hinv.bounded e he) (Nat.le_add_right _ _)

/-- `mark_first` on a RangeSet owned by a Heap (no tail free range): it
succeeds, preserves the invariants and the absence of tail ranges, grows the
capacity by exactly the returned extra amount, creates no free space, and
the returned region fits inside the new capacity. -/
theorem mark_first_spec {rs : RangeSet} {n : Nat} (hinv : rs.Inv)
    (hnt : rs.noTail) (hn : 0 < n) :
    ∃ p extra rs', rs.mark_first n = some ((p, extra), rs') ∧ rs'.Inv ∧
      rs'.noTail ∧ rs'.capacity = rs.capacity + extra ∧
      (∀ x, rs'.freeAddr x → rs.freeAddr x) ∧
      p + n ≤ rs'.capacity ∧ (0 < extra → p = rs.capacity) := by
  cases hsb : succEntry n rs.free_map with
  | some e =>
    obtain ⟨size, bucket⟩ := e
    obtain ⟨p0, hhead, hp0r, hnsize⟩ := tier1_found hinv hsb
    obtain ⟨rs'', hms, hinv'', hcaple, hsub, _, hntc⟩ :=
      mark_smaller_spec hinv hp0r hnsize
    obtain ⟨hnt'', hcapeq⟩ := hntc hnt
    refine ⟨p0, 0, rs'', ?_, hinv'', hnt'', by omega, hsub, ?_,
      fun hc => absurd hc (Nat.lt_irrefl 0)⟩
    · simp only [mark_first, hsb, hhead, hms]
    · have := hinv.bounded _ hp0r
      have h' : p0 + size ≤ rs.capacity := this
      omega
  | none =>
    have htier3 : rs.mark_first n =
        some ((rs.capacity, n), ⟨rs.capacity + n, rs.ranges, rs.free_map⟩) := by
      cases hlast : lastEntry rs.ranges with
      | none => simp only [mark_first, hsb, hlast]
      | some e =>
        obtain ⟨tail, size⟩ := e
        have htm : (tail, size) ∈ rs.ranges := lastEntry_mem hlast
        have htail : ¬ tail + size = rs.capacity := by
          have := hnt _ htm
          have h' : tail + size < rs.capacity := this
          omega
        simp only [mark_first, hsb, hlast, if_neg htail]
    refine ⟨rs.capacity, n, _, htier3, ?_, ?_, rfl, ?_, ?_, fun _ => rfl⟩
    · exact cap_change_inv hinv fun e he =>
        le_trans (hinv.bounded e he) (Nat.le_add_right _ _)
    · intro e he
      show e.1 + e.2 < rs.capacity + n
      have := hnt e he
      omega
    · intro x hf
      exact hf
    · show rs.capacity + n ≤ rs.capacity + n
      omega

theorem new_inv : RangeSet.new.Inv := by
  constructor <;> simp [RangeSet.new, sortedKeys]

/-- Converting the entrywise disjointness through a semantic inclusion of
free addresses. -/
theorem disjoint_of_subset {rs rs' : RangeSet} (hinv' : rs'.Inv)
    (hsub : ∀ x, rs'.freeAddr x → rs.freeAddr x)
    {p s : Nat} (hs : 0 < s) (hd : rs.disjointFromRanges p s) :
    rs'.disjointFromRanges p s := by
  intro e he
  by_contra hc
  push_neg at hc
  obtain ⟨h1, h2⟩ := hc
  have hpos : 0 < e.2 := hinv'.pos e he
  have hx : ∃ x, p ≤ x ∧ x < p + s ∧ e.1 ≤ x ∧ x < e.1 + e.2 := by
    rcases Nat.le_total p e.1 with hle | hle
    · exact ⟨e.1, hle, by omega, by omega, by omega⟩
    · exact ⟨p, by omega, by omega, hle, by omega⟩
  obtain ⟨x, hx1, hx2, hx3, hx4⟩ := hx
  obtain ⟨f, hf, hcov⟩ := hsub x ⟨e, he, hx3, hx4⟩
  have hc1 : f.1 ≤ x := hcov.1
  have hc2 : x < f.1 + f.2 := hcov.2
  rcases hd f hf with hd1 | hd2 <;> omega

/-! ## Lemmas about `RangeSet::add_free_capacity` -/

theorem add_free_capacity_inv {rs : RangeSet} {s : Nat} {rs' : RangeSet}
    (hinv : rs.Inv) (h : rs.add_free_capacity s = some rs') : rs'.Inv := by
  have hrs := hinv.ranges_sorted
  by_cases hB : ∃ a la, (a, la) ∈ rs.ranges ∧ a + la = rs.capacity
  · -- a tail free range is absorbed by the seeding `free`
    obtain ⟨a, la, hmB, hendB⟩ := hB
    have hla : 0 < la := hinv.pos _ hmB
    have hpred : predEntry rs.capacity rs.ranges = some (a, la) :=
      predEntry_of_end_eq hinv hmB hendB
    have hm1 := mark_eq hinv hmB
    have hinvm := mark_inv hinv hmB
    have hlta : ∀ e ∈ (rs.markState a la).ranges, e.1 < a := by
      intro e he
      rw [markState_ranges, mem_eraseKey hrs] at he
      obtain ⟨heR, hea⟩ := he
      have hb := hinv.bounded e heR
      have hp := hinv.pos e heR
      rcases Nat.lt_trichotomy e.1 a with h' | h' | h'
      · exact h'
      · exact absurd h' hea
      · have := hinv.no_adj (a, la) hmB e heR h'
        have h'' : a + la < e.1 := this
        omega
    have hsucc : succEntry a (rs.markState a la).ranges = none :=
      succEntry_pin_none hlta
    have hPkey : lookupKey a (rs.markState a la).ranges = none := by
      rw [markState_ranges]
      exact lookupKey_eraseKey_self hrs
    have hcomp : rs.free rs.capacity s =
        (if a + (la + s) = (rs.markState a la).capacity then
          some (la + s,
            ⟨(rs.markState a la).capacity - (la + s),
             (rs.markState a la).ranges, (rs.markState a la).free_map⟩)
        else
          some (0,
            ⟨(rs.markState a la).capacity,
             insertKey a (la + s) (rs.markState a la).ranges,
             insertBucket (la + s) a (rs.markState a la).free_map⟩)) := by
      simp only [free, free_merge, hpred, if_pos hendB, hm1, hsucc, hPkey]
    by_cases hs0 : s = 0
    · subst hs0
      have hcond : a + (la + 0) = (rs.markState a la).capacity := by
        rw [markState_capacity]
        omega
      rw [if_pos hcond] at hcomp
      simp only [add_free_capacity, hcomp] at h
      injection h with h
      rw [← h]
      apply cap_change_inv hinvm
      intro e he
      have := hlta e he
      have hadj := hinv.no_adj e (by
        rw [markState_ranges, mem_eraseKey hrs] at he
        exact he.1) (a, la) hmB this
      have hadj' : e.1 + e.2 < a := hadj
      rw [markState_capacity]
      omega
    · have hcond : ¬ a + (la + s) = (rs.markState a la).capacity := by
        rw [markState_capacity]
        omega
      rw [if_neg hcond] at hcomp
      simp only [add_free_capacity, hcomp] at h
      injection h with h
      rw [← h]
      have hins := insert_inv hinvm (by omega : 0 < la + s)
        (by
          intro e he
          left
          have := hlta e he
          have hadj := hinv.no_adj e (by
            rw [markState_ranges, mem_eraseKey hrs] at he
            exact he.1) (a, la) hmB this
          exact hadj)
        (Nat.le_add_right _ _ :
          (rs.markState a la).capacity ≤ (rs.markState a la).capacity + s)
        (by rw [markState_capacity]; omega :
          a + (la + s) ≤ (rs.markState a la).capacity + s)
      exact hins
  · -- no tail free range: the released region has no neighbour to merge
    have hkeys : ∀ e ∈ rs.ranges, e.1 < rs.capacity := by
      intro e he
      have hb := hinv.bounded e he
      have hp := hinv.pos e he
      omega
    have hsucc : succEntry rs.capacity rs.ranges = none :=
      succEntry_pin_none hkeys
    have hPkey : lookupKey rs.capacity rs.ranges = none := by
      apply lookupKey_eq_none.mpr
      intro e he
      have := hkeys e he
      omega
    have hcomp : rs.free rs.capacity s =
        (if rs.capacity + s = rs.capacity then
          some (s, ⟨rs.capacity - s, rs.ranges, rs.free_map⟩)
        else
          some (0, ⟨rs.capacity, insertKey rs.capacity s rs.ranges,
            insertBucket s rs.capacity rs.free_map⟩)) := by
      cases hpred : predEntry rs.capacity rs.ranges with
      | none => simp only [free, free_merge, hpred, hsucc, hPkey]
      | some e =>
        obtain ⟨a, la⟩ := e
        have hne : ¬ a + la = rs.capacity := by
          intro hc
          exact hB ⟨a, la, (predEntry_mem hpred).1, hc⟩
        simp only [free, free_merge, hpred, if_neg hne, hsucc, hPkey]
    by_cases hs0 : s = 0
    · subst hs0
      rw [if_pos (by omega)] at hcomp
      simp only [add_free_capacity, hcomp] at h
      injection h with h
      rw [← h]
      apply cap_change_inv hinv
      intro e he
      have := hinv.bounded e he
      omega
    · rw [if_neg (by omega)] at hcomp
      simp only [add_free_capacity, hcomp] at h
      injection h with h
      rw [← h]
      exact insert_inv hinv (by omega)
        (by
          intro e he
          left
          have h1 := hinv.bounded e he
          have h2 : ¬ e.1 + e.2 = rs.capacity := fun hc => hB ⟨e.1, e.2, by
            rwa [Prod.mk.eta], hc⟩
          omega)
        (Nat.le_add_right _ _) (by omega)

/-! ## Exact cancellation of `mark` and re-insertion on the by-length index -/

/-- Re-inserting a marked pointer restores the by-length index exactly. -/
theorem insertBucket_markState {rs : RangeSet} {p size : Nat} (hinv : rs.Inv)
    (hm : (p, size) ∈ rs.ranges) :
    insertBucket size p (rs.markState p size).free_map = rs.free_map := by
  have hfs := hinv.free_sorted
  have hp : p ∈ rs.bucketOf size := hinv.mirror_rf (p, size) hm
  have hbne : rs.bucketOf size ≠ [] := fun hc => by rw [hc] at hp; simp at hp
  have hbm : (size, rs.bucketOf size) ∈ rs.free_map := hinv.bucketOf_mem_free hbne
  have hbsorted : (rs.bucketOf size).Pairwise (· < ·) := hinv.bucketOf_sorted size
  show insertBucket size p (if (rs.bucketOf size).erase p = []
      then eraseKey size rs.free_map
      else insertKey size ((rs.bucketOf size).erase p) rs.free_map) = rs.free_map
  by_cases hb : (rs.bucketOf size).erase p = []
  · rw [if_pos hb]
    have hbeq : rs.bucketOf size = [p] := erase_eq_nil hbsorted hp hb
    simp only [insertBucket, lookupKey_eraseKey_self hfs]
    rw [← hbeq]
    exact insertKey_cancel_eraseKey hfs hbm
  · rw [if_neg hb]
    simp only [insertBucket, lookupKey_insertKey_self]
    rw [insertPtr_cancel_erase hbsorted hp, insertKey_insertKey]
    exact insertKey_self hfs hbm

/-- Marking a pointer that was just inserted restores the by-length index
exactly. -/
theorem markState_cancel_insertBucket {C : Nat} {R' : List (Nat × Nat)}
    {F : List (Nat × List Nat)} {S P : Nat}
    (hfs : sortedKeys F) (hbn : ∀ b ∈ F, b.2 ≠ [])
    (hp : P ∉ (lookupKey S F).getD []) :
    (RangeSet.markState ⟨C, R', insertBucket S P F⟩ P S).free_map = F := by
  have hbkt : RangeSet.bucketOf ⟨C, R', insertBucket S P F⟩ S =
      insertPtr P ((lookupKey S F).getD []) := by
    show (lookupKey S (insertBucket S P F)).getD [] = _
    rw [lookup_insertBucket_self]
    rfl
  show (if (RangeSet.bucketOf ⟨C, R', insertBucket S P F⟩ S).erase P = []
      then eraseKey S (insertBucket S P F)
      else insertKey S ((RangeSet.bucketOf ⟨C, R', insertBucket S P F⟩ S).erase P)
        (insertBucket S P F)) = F
  rw [hbkt, erase_cancel_insertPtr hp]
  cases hlk : lookupKey S F with
  | none =>
    simp only [Option.getD_none, if_pos]
    show eraseKey S (insertBucket S P F) = F
    simp only [insertBucket, hlk]
    exact eraseKey_cancel_insertKey hlk
  | some b =>
    simp only [Option.getD_some]
    have hbne : b ≠ [] := hbn (S, b) (mem_of_lookupKey hlk)
    rw [if_neg hbne]
    simp only [insertBucket, hlk]
    rw [insertKey_insertKey]
    exact insertKey_self hfs (mem_of_lookupKey hlk)

/-- The merge phase of `free` is the identity when no free range touches
the released region. -/
theorem free_merge_no_neighbor {rs : RangeSet} {p s : Nat}
    (hpred : ∀ e ∈ rs.ranges, e.1 < p → ¬ e.1 + e.2 = p)
    (hsucc : ∀ e ∈ rs.ranges, p ≤ e.1 → ¬ p + s = e.1) :
    rs.free_merge p s = some (p, s, rs) := by
  cases hpe : predEntry p rs.ranges with
  | none =>
    cases hse : succEntry p rs.ranges with
    | none => simp only [free_merge, hpe, hse]
    | some e2 =>
      obtain ⟨a2, l2⟩ := e2
      obtain ⟨hm2, hge2⟩ := succEntry_mem hse
      have hne2 : ¬ p + s = a2 := hsucc _ hm2 hge2
      simp only [free_merge, hpe, hse, if_neg hne2]
  | some e1 =>
    obtain ⟨a, la⟩ := e1
    obtain ⟨hm1, hlt1⟩ := predEntry_mem hpe
    have hne1 : ¬ a + la = p := hpred _ hm1 hlt1
    cases hse : succEntry p rs.ranges with
    | none => simp only [free_merge, hpe, if_neg hne1, hse]
    | some e2 =>
      obtain ⟨a2, l2⟩ := e2
      obtain ⟨hm2, hge2⟩ := succEntry_mem hse
      have hne2 : ¬ p + s = a2 := hsucc _ hm2 hge2
      simp only [free_merge, hpe, if_neg hne1, hse, if_neg hne2]

/-- `mark` never changes the capacity. -/
theorem mark_capacity {rs : RangeSet} {p l : Nat} {rs' : RangeSet}
    (h : rs.mark p = some (l, rs')) : rs'.capacity = rs.capacity := by
  cases h1 : lookupKey p rs.ranges with
  | none =>
    simp only [mark, h1] at h
    exact Option.noConfusion h
  | some size =>
    cases h2 : lookupKey size rs.free_map with
    | none =>
      simp only [mark, h1, h2] at h
      exact Option.noConfusion h
    | some bucket =>
      by_cases h3 : p ∈ bucket
      · simp only [mark, h1, h2, if_pos h3, Option.some.injEq,
          Prod.mk.injEq] at h
        rw [← h.2]
      · simp only [mark, h1, h2, if_neg h3] at h
        exact Option.noConfusion h

/-- `free_merge` never changes the capacity: the coalescing phase only
removes absorbed neighbours from the indices. -/
theorem free_merge_capacity {rs : RangeSet} {p s P S : Nat} {rsm : RangeSet}
    (h : rs.free_merge p s = some (P, S, rsm)) :
    rsm.capacity = rs.capacity := by
  have phase2 : ∀ (P1 S1 : Nat) (rs1 : RangeSet),
      (match succEntry P1 rs1.ranges with
        | some (pointer_after, size) =>
          if P1 + S1 = pointer_after then
            match rs1.mark pointer_after with
            | some (_, rs2) => some (P1, S1 + size, rs2)
            | none => none
          else some (P1, S1, rs1)
        | none => some (P1, S1, rs1)) =
          some (P, S, rsm) → rsm.capacity = rs1.capacity := by
    intro P1 S1 rs1 hh
    cases hse : succEntry P1 rs1.ranges with
    | none =>
      rw [hse] at hh
      simp only [Option.some.injEq, Prod.mk.injEq] at hh
      rw [← hh.2.2]
    | some e2 =>
      obtain ⟨a2, l2⟩ := e2
      by_cases hc : P1 + S1 = a2
      · cases hmk : rs1.mark a2 with
        | none =>
          simp only [hse, if_pos hc, hmk] at hh
          exact Option.noConfusion hh
        | some r2 =>
          obtain ⟨l2', rs2⟩ := r2
          simp only [hse, if_pos hc, hmk, Option.some.injEq,
            Prod.mk.injEq] at hh
          rw [← hh.2.2]
          exact mark_capacity hmk
      · simp only [hse, if_neg hc, Option.some.injEq, Prod.mk.injEq] at hh
        rw [← hh.2.2]
  cases hpe : predEntry p rs.ranges with
  | none =>
    simp only [free_merge, hpe] at h
    exact phase2 p s rs h
  | some e1 =>
    obtain ⟨a, la⟩ := e1
    by_cases hc1 : a + la = p
    · cases hmk : rs.mark a with
      | none =>
        simp only [free_merge, hpe, if_pos hc1, hmk] at h
        exact Option.noConfusion h
      | some r1 =>
        obtain ⟨l1', rs1⟩ := r1
        simp only [free_merge, hpe, if_pos hc1, hmk] at h
        rw [phase2 a (la + s) rs1 h]
        exact mark_capacity hmk
    · simp only [free_merge, hpe, if_neg hc1] at h
      exact phase2 p s rs h

/-- Every RangeSet state reachable by the public operations satisfies the
representation invariants. -/
theorem reach_inv {rs : RangeSet} (hr : rs.Reach) : rs.Inv := by
  induction hr with
  | base => exact new_inv
  | add_cap hr heq ih => exact add_free_capacity_inv ih heq
  | mk_first hr heq ih => exact mark_first_inv ih heq
  | mk_smaller hr hm hn heq ih =>
    obtain ⟨rs'', hms, hinv'', _⟩ := mark_smaller_spec ih hm hn
    rw [heq] at hms
    injection hms with hms
    rw [hms]
    exact hinv''
  | free_op hr hs hcap hdisj heq ih =>
    obtain ⟨shrink, rs'', heq', hinv'', _⟩ := free_spec ih hs hcap hdisj
    rw [heq] at heq'
    injection heq' with heq'
    injection heq' with _ h2
    rw [h2]
    exact hinv''

end RangeSet

/-! ## Lemmas about the Heap operations -/

namespace Heap

theorem copy_slots_length {data : List Nat} {src dst n : Nat} :
    (copy_slots data src dst n).length = data.length := by
  unfold copy_slots
  induction n with
  | zero => simp
  | succ k ih =>
    rw [List.range_succ, List.foldl_append]
    simp only [List.foldl_cons, List.foldl_nil, List.length_set]
    exact ih

theorem new_heap_inv : Heap.new.Inv := by
  refine ⟨RangeSet.new_inv, ?_, ?_⟩
  · intro e he
    simp [Heap.new, RangeSet.new] at he
  · simp [Heap.new, RangeSet.new]

/-- `Heap::alloc` succeeds on an invariant heap, preserves the invariant,
grows the capacity monotonically and creates no free space. -/
theorem alloc_spec {h : Heap} {n : Nat} (hinv : h.Inv) (hn : 0 < n) :
    ∃ p h', h.alloc n = some (p, h') ∧ h'.Inv ∧
      h.free_set.capacity ≤ h'.free_set.capacity ∧
      (∀ x, h'.free_set.freeAddr x → h.free_set.freeAddr x) ∧
      p + n ≤ h'.free_set.capacity := by
  obtain ⟨p, extra, rs', heq, hinv', hnt', hcap', hsub, hfit, _⟩ :=
    RangeSet.mark_first_spec hinv.rinv hinv.no_tail hn
  refine ⟨p, ⟨h.data ++ List.replicate extra 0, rs'⟩, ?_, ?_,
    by show h.free_set.capacity ≤ rs'.capacity; omega, hsub, hfit⟩
  · simp only [Heap.alloc, heq]
  · refine ⟨hinv', hnt', ?_⟩
    show (h.data ++ List.replicate extra 0).length = rs'.capacity
    rw [List.length_append, List.length_replicate, hinv.len_eq, hcap']

/-- `Heap::free` succeeds on a valid free request and preserves the
invariant. -/
theorem heap_free_spec {h : Heap} {p s : Nat} (hinv : h.Inv)
    (hv : h.ValidFree p s) : ∃ h', h.free p s = some h' ∧ h'.Inv := by
  obtain ⟨hs, hcap, hdisj⟩ := hv
  obtain ⟨shrink, rs', heq, hinv', hcap', hnt'⟩ :=
    RangeSet.free_spec hinv.rinv hs hcap hdisj
  refine ⟨⟨h.data.take (h.data.length - shrink), rs'⟩, ?_, hinv', hnt' hinv.no_tail, ?_⟩
  · simp only [Heap.free, heq]
  · show (h.data.take (h.data.length - shrink)).length = rs'.capacity
    rw [List.length_take, hinv.len_eq]
    omega

/-- `Heap::realloc` succeeds on a valid reallocation request and preserves
the invariant. -/
theorem realloc_spec {h : Heap} {p old new : Nat} (hinv : h.Inv)
    (hv : h.ValidRealloc p old new) :
    ∃ q h', h.realloc p old new = some (q, h') ∧ h'.Inv := by
  obtain ⟨hold, hnew, hcap, hdisj⟩ := hv
  rcases Nat.lt_trichotomy old new with hlt | heqon | hgt
  · by_cases hif : h.is_free (p + old) (new - old) = true
    · -- in-place growth: the probed region starts exactly at `p + old`
      have hkey : ∃ fr, (p + old, fr) ∈ h.free_set.ranges ∧ new - old ≤ fr := by
        unfold is_free at hif
        cases hpe : predEntry (p + old + 1) h.free_set.ranges with
        | none => rw [hpe] at hif; simp at hif
        | some e =>
          obtain ⟨a, fr⟩ := e
          rw [hpe] at hif
          have hle : p + old + (new - old) ≤ a + fr := of_decide_eq_true hif
          obtain ⟨hmem, hlt1⟩ := predEntry_mem hpe
          have ha : a ≤ p + old := by
            have h' : a < p + old + 1 := hlt1
            omega
          have haeq : a = p + old := by
            rcases hdisj (a, fr) hmem with hd | hd
            · have hd' : p + old ≤ a := hd
              omega
            · have hd' : a + fr ≤ p := hd
              omega
          subst haeq
          exact ⟨fr, hmem, by omega⟩
      obtain ⟨fr, hmem, hfrge⟩ := hkey
      obtain ⟨rs', hms, hinv', _, _, _, hntc⟩ :=
        RangeSet.mark_smaller_spec hinv.rinv hmem hfrge
      obtain ⟨hnt', hcapeq⟩ := hntc hinv.no_tail
      refine ⟨p, ⟨h.data, rs'⟩, ?_, hinv', hnt', ?_⟩
      · simp only [Heap.realloc, if_pos hlt, hif, if_pos, hms, ite_true]
      · show h.data.length = rs'.capacity
        rw [hcapeq, hinv.len_eq]
    · -- move: allocate, copy, free the old region
      have hnewpos : 0 < new := by omega
      obtain ⟨q, h1, halloc, hinv1, hcaple, hsub, hfit⟩ := alloc_spec hinv hnewpos
      have hdisj1 : h1.free_set.disjointFromRanges p old :=
        RangeSet.disjoint_of_subset hinv1.rinv hsub hold hdisj
      have hv1 : Heap.ValidFree ⟨copy_slots h1.data p q old, h1.free_set⟩ p old :=
        ⟨hold, by show p + old ≤ h1.free_set.capacity; omega, hdisj1⟩
      have hinvc : Heap.Inv ⟨copy_slots h1.data p q old, h1.free_set⟩ := by
        refine ⟨hinv1.rinv, hinv1.no_tail, ?_⟩
        show (copy_slots h1.data p q old).length = h1.free_set.capacity
        rw [copy_slots_length]
        exact hinv1.len_eq
      obtain ⟨h2, hfree2, hinv2⟩ := heap_free_spec hinvc hv1
      refine ⟨q, h2, ?_, hinv2⟩
      simp only [Heap.realloc, if_pos hlt, hif, Bool.false_eq_true, if_false,
        halloc, hfree2, ite_false]
  · -- equal sizes: nothing happens
    have h1 : ¬ old < new := by omega
    have h2 : ¬ new < old := by omega
    refine ⟨p, h, ?_, hinv⟩
    simp only [Heap.realloc, if_neg h1, if_neg h2]
  · -- shrink: the tail of the allocation is freed
    have h1 : ¬ old < new := by omega
    have hv1 : h.ValidFree (p + new) (old - new) := by
      refine ⟨by omega, by omega, ?_⟩
      intro e he
      rcases hdisj e he with hd | hd
      · left
        have hd' : p + old ≤ e.1 := hd
        omega
      · right
        have hd' : e.1 + e.2 ≤ p := hd
        omega
    obtain ⟨h2, hfree2, hinv2⟩ := heap_free_spec hinv hv1
    refine ⟨p, h2, ?_, hinv2⟩
    simp only [Heap.realloc, if_neg h1, if_pos hgt, hfree2]

/-- Every heap state reachable by the public operations satisfies the
representation invariant. -/
theorem reachable_inv {h : Heap} (hr : h.Reachable) : h.Inv := by
  induction hr with
  | base => exact new_heap_inv
  | alloc hr hn heq ih =>
    rename_i h n p h'
    obtain ⟨p', h'', heq', hinv', _⟩ := alloc_spec ih hn
    rw [heq] at heq'
    injection heq' with heq'
    injection heq' with _ heq2
    rw [heq2]
    exact hinv'
  | free hr hv heq ih =>
    rename_i h p s h'
    obtain ⟨h'', heq', hinv'⟩ := heap_free_spec ih hv
    rw [heq] at heq'
    injection heq' with heq'
    rw [heq']
    exact hinv'
  | realloc hr hv heq ih =>
    rename_i h p o n q h'
    obtain ⟨q', h'', heq', hinv'⟩ := realloc_spec ih hv
    rw [heq] at heq'
    injection heq' with heq'
    injection heq' with _ heq2
    rw [heq2]
    exact hinv'

/-- Round trip: on any heap satisfying the invariant, `alloc(n)` followed
immediately by `free` of the returned pointer with the same size restores
the heap exactly — same RangeSet (both indices and capacity) and same
backing storage. -/
theorem alloc_free_roundtrip {h : Heap} (hinv : h.Inv) {n : Nat} (hn : 0 < n) :
    ∃ p h₁, h.alloc n = some (p, h₁) ∧ h₁.free p n = some h := by
  obtain ⟨data, rs⟩ := h
  have hrinv : rs.Inv := hinv.rinv
  have hnt : rs.noTail := hinv.no_tail
  have hrs := hrinv.ranges_sorted
  cases hsb : succEntry n rs.free_map with
  | some e =>
    -- tier 1: a free range of sufficient size is reused
    obtain ⟨size, bucket⟩ := e
    obtain ⟨p0, hhead, hp0r, hnsize⟩ := RangeSet.tier1_found hrinv hsb
    have hm1 := RangeSet.mark_eq hrinv hp0r
    have hinvm := RangeSet.mark_inv hrinv hp0r
    have hpos : 0 < size := hrinv.pos _ hp0r
    have hbnd : p0 + size < rs.capacity := hnt _ hp0r
    have hIB := RangeSet.insertBucket_markState hrinv hp0r
    have hIK : insertKey p0 size (eraseKey p0 rs.ranges) = rs.ranges :=
      insertKey_cancel_eraseKey hrs hp0r
    have hlkp : lookupKey p0 (rs.markState p0 size).ranges = none := by
      rw [RangeSet.markState_ranges]
      exact lookupKey_eraseKey_self hrs
    by_cases hsz : size = n
    · -- exact fit: `free` reinserts the very same range
      subst hsz
      have hms : rs.mark_smaller p0 size = some (rs.markState p0 size) := by
        simp only [RangeSet.mark_smaller, hm1, eq_self_iff_true, ite_true]
      have halloc : Heap.alloc ⟨data, rs⟩ size =
          some (p0, ⟨data ++ List.replicate 0 0, rs.markState p0 size⟩) := by
        simp only [Heap.alloc, RangeSet.mark_first, hsb, hhead, hms]
      have hfm : (rs.markState p0 size).free_merge p0 size =
          some (p0, size, rs.markState p0 size) := by
        apply RangeSet.free_merge_no_neighbor
        · intro e he hlt
          rw [RangeSet.markState_ranges, mem_eraseKey hrs] at he
          have := hrinv.no_adj e he.1 (p0, size) hp0r hlt
          have h' : e.1 + e.2 < p0 := this
          omega
        · intro e he hge
          rw [RangeSet.markState_ranges, mem_eraseKey hrs] at he
          obtain ⟨heR, hene⟩ := he
          have hgt : p0 < e.1 := by
            have h' : p0 ≤ e.1 := hge
            omega
          have := hrinv.no_adj (p0, size) hp0r e heR hgt
          have h' : p0 + size < e.1 := this
          omega
      have hfree1 : (rs.markState p0 size).free p0 size =
          some (0, ⟨rs.capacity, rs.ranges, rs.free_map⟩) := by
        have hcnd : ¬ p0 + size = (rs.markState p0 size).capacity := by
          rw [RangeSet.markState_capacity]
          omega
        simp only [RangeSet.free, hfm, if_neg hcnd, hlkp]
        rw [RangeSet.markState_ranges, hIK, hIB, RangeSet.markState_capacity]
      refine ⟨p0, _, halloc, ?_⟩
      show Heap.free ⟨data ++ List.replicate 0 0, rs.markState p0 size⟩ p0 size =
        some ⟨data, rs⟩
      simp only [Heap.free, hfree1, List.replicate, List.append_nil,
        Nat.sub_zero, List.take_length]
    · -- best fit with leftover: `free` re-merges the leftover back
      have hlt : n < size := Nat.lt_of_le_of_ne hnsize fun hc => hsz hc.symm
      have hnokey : lookupKey (p0 + n) (rs.markState p0 size).ranges = none := by
        rw [RangeSet.markState_ranges]
        apply lookupKey_eq_none.mpr
        intro e he
        rw [mem_eraseKey hrs] at he
        obtain ⟨heR, hene⟩ := he
        intro hc
        rcases Nat.lt_trichotomy e.1 p0 with h' | h' | h'
        · have := hrinv.no_adj e heR (p0, size) hp0r h'
          have h'' : e.1 + e.2 < p0 := this
          have hp' := hrinv.pos e heR
          omega
        · exact hene h'
        · have := hrinv.no_adj (p0, size) hp0r e heR h'
          have h'' : p0 + size < e.1 := this
          omega
      have hgap : ∀ e ∈ (rs.markState p0 size).ranges,
          e.1 + e.2 < p0 + n ∨ p0 + n + (size - n) < e.1 := by
        intro e he
        rw [RangeSet.markState_ranges, mem_eraseKey hrs] at he
        obtain ⟨heR, hene⟩ := he
        rcases Nat.lt_trichotomy e.1 p0 with h' | h' | h'
        · left
          have := hrinv.no_adj e heR (p0, size) hp0r h'
          have h'' : e.1 + e.2 < p0 := this
          omega
        · exact absurd h' hene
        · right
          have := hrinv.no_adj (p0, size) hp0r e heR h'
          have h'' : p0 + size < e.1 := this
          omega
      have hfr := RangeSet.free_no_merge_spec hinvm
        (by omega : 0 < size - n) hgap
      rw [if_neg (by rw [RangeSet.markState_capacity]; omega)] at hfr
      have hms : rs.mark_smaller p0 n =
          some ⟨(rs.markState p0 size).capacity,
            insertKey (p0 + n) (size - n) (rs.markState p0 size).ranges,
            RangeSet.insertBucket (size - n) (p0 + n) (rs.markState p0 size).free_map⟩ := by
        simp only [RangeSet.mark_smaller, hm1, if_neg hsz, if_pos hlt, hfr]
      have halloc : Heap.alloc ⟨data, rs⟩ n =
          some (p0, ⟨data ++ List.replicate 0 0,
            ⟨(rs.markState p0 size).capacity,
             insertKey (p0 + n) (size - n) (rs.markState p0 size).ranges,
             RangeSet.insertBucket (size - n) (p0 + n) (rs.markState p0 size).free_map⟩⟩) := by
        simp only [Heap.alloc, RangeSet.mark_first, hsb, hhead, hms]
      have hinv2 : RangeSet.Inv ⟨(rs.markState p0 size).capacity,
          insertKey (p0 + n) (size - n) (rs.markState p0 size).ranges,
          RangeSet.insertBucket (size - n) (p0 + n) (rs.markState p0 size).free_map⟩ := by
        apply RangeSet.insert_inv hinvm (by omega) hgap (le_refl _)
        rw [RangeSet.markState_capacity]
        omega
      have hmem2 : (p0 + n, size - n) ∈
          (RangeSet.mk (rs.markState p0 size).capacity
            (insertKey (p0 + n) (size - n) (rs.markState p0 size).ranges)
            (RangeSet.insertBucket (size - n) (p0 + n) (rs.markState p0 size).free_map)).ranges := by
        show (p0 + n, size - n) ∈
          insertKey (p0 + n) (size - n) (rs.markState p0 size).ranges
        exact (mem_insertKey hinvm.ranges_sorted).mpr (Or.inl rfl)
      have hm2 := RangeSet.mark_eq hinv2 hmem2
      -- the merge phase of the final `free` absorbs the leftover
      have hpred2 : ∀ e ∈ (RangeSet.mk (rs.markState p0 size).capacity
          (insertKey (p0 + n) (size - n) (rs.markState p0 size).ranges)
          (RangeSet.insertBucket (size - n) (p0 + n) (rs.markState p0 size).free_map)).ranges,
          e.1 < p0 → ¬ e.1 + e.2 = p0 := by
        intro e he hlt'
        rcases (mem_insertKey hinvm.ranges_sorted).mp he with he' | ⟨he', _⟩
        · rw [he'] at hlt'
          have h' : p0 + n < p0 := hlt'
          omega
        · rw [RangeSet.markState_ranges, mem_eraseKey hrs] at he'
          have := hrinv.no_adj e he'.1 (p0, size) hp0r hlt'
          have h' : e.1 + e.2 < p0 := this
          omega
      have hsucc2 : succEntry p0 (RangeSet.mk (rs.markState p0 size).capacity
          (insertKey (p0 + n) (size - n) (rs.markState p0 size).ranges)
          (RangeSet.insertBucket (size - n) (p0 + n) (rs.markState p0 size).free_map)).ranges =
          some (p0 + n, size - n) := by
        apply RangeSet.succEntry_pin hinv2.ranges_sorted hmem2 (by show p0 ≤ p0 + n; omega)
        intro e he hge
        rcases (mem_insertKey hinvm.ranges_sorted).mp he with he' | ⟨he', hene⟩
        · rw [he']
        · rw [RangeSet.markState_ranges, mem_eraseKey hrs] at he'
          obtain ⟨heR, hene'⟩ := he'
          have hgt : p0 < e.1 := by
            have h' : p0 ≤ e.1 := hge
            omega
          have := hrinv.no_adj (p0, size) hp0r e heR hgt
          have h' : p0 + size < e.1 := this
          show p0 + n ≤ e.1
          omega
      have hfm2 : RangeSet.free_merge ⟨(rs.markState p0 size).capacity,
          insertKey (p0 + n) (size - n) (rs.markState p0 size).ranges,
          RangeSet.insertBucket (size - n) (p0 + n) (rs.markState p0 size).free_map⟩ p0 n =
          some (p0, n + (size - n),
            (RangeSet.mk (rs.markState p0 size).capacity
              (insertKey (p0 + n) (size - n) (rs.markState p0 size).ranges)
              (RangeSet.insertBucket (size - n) (p0 + n) (rs.markState p0 size).free_map)).markState
              (p0 + n) (size - n)) := by
        cases hpe : predEntry p0 (RangeSet.mk (rs.markState p0 size).capacity
            (insertKey (p0 + n) (size - n) (rs.markState p0 size).ranges)
            (RangeSet.insertBucket (size - n) (p0 + n) (rs.markState p0 size).free_map)).ranges with
        | none =>
          simp only [RangeSet.free_merge, hpe, hsucc2, eq_self_iff_true,
            ite_true, hm2]
        | some e1 =>
          obtain ⟨a, la⟩ := e1
          obtain ⟨hm1', hlt1⟩ := predEntry_mem hpe
          have hne1 : ¬ a + la = p0 := hpred2 _ hm1' hlt1
          simp only [RangeSet.free_merge, hpe, if_neg hne1, hsucc2,
            eq_self_iff_true, ite_true, hm2]
      have hr3 : ((RangeSet.mk (rs.markState p0 size).capacity
          (insertKey (p0 + n) (size - n) (rs.markState p0 size).ranges)
          (RangeSet.insertBucket (size - n) (p0 + n) (rs.markState p0 size).free_map)).markState
            (p0 + n) (size - n)).ranges = (rs.markState p0 size).ranges := by
        rw [RangeSet.markState_ranges]
        show eraseKey (p0 + n) (insertKey (p0 + n) (size - n)
          (rs.markState p0 size).ranges) = _
        exact eraseKey_cancel_insertKey hnokey
      have hf3 : ((RangeSet.mk (rs.markState p0 size).capacity
          (insertKey (p0 + n) (size - n) (rs.markState p0 size).ranges)
          (RangeSet.insertBucket (size - n) (p0 + n) (rs.markState p0 size).free_map)).markState
            (p0 + n) (size - n)).free_map = (rs.markState p0 size).free_map := by
        apply RangeSet.markState_cancel_insertBucket hinvm.free_sorted
          hinvm.buckets_ne
        intro hc
        have : (p0 + n, size - n) ∈ (rs.markState p0 size).ranges :=
          hinvm.mem_bucketOf hc
        rw [RangeSet.markState_ranges] at this
        have := lookupKey_eq_some_of_mem (sortedKeys_eraseKey hrs) this
        rw [RangeSet.markState_ranges] at hnokey
        rw [hnokey] at this
        exact Option.noConfusion this
      have hfree1 : RangeSet.free ⟨(rs.markState p0 size).capacity,
          insertKey (p0 + n) (size - n) (rs.markState p0 size).ranges,
          RangeSet.insertBucket (size - n) (p0 + n) (rs.markState p0 size).free_map⟩ p0 n =
          some (0, ⟨rs.capacity, rs.ranges, rs.free_map⟩) := by
        have hcnd : ¬ p0 + (n + (size - n)) =
            ((RangeSet.mk (rs.markState p0 size).capacity
              (insertKey (p0 + n) (size - n) (rs.markState p0 size).ranges)
              (RangeSet.insertBucket (size - n) (p0 + n) (rs.markState p0 size).free_map)).markState
                (p0 + n) (size - n)).capacity := by
          rw [RangeSet.markState_capacity]
          show ¬ _ = (rs.markState p0 size).capacity
          rw [RangeSet.markState_capacity]
          omega
        have hlkp3 : lookupKey p0 ((RangeSet.mk (rs.markState p0 size).capacity
            (insertKey (p0 + n) (size - n) (rs.markState p0 size).ranges)
            (RangeSet.insertBucket (size - n) (p0 + n) (rs.markState p0 size).free_map)).markState
              (p0 + n) (size - n)).ranges = none := by
          rw [hr3]
          exact hlkp
        simp only [RangeSet.free, hfm2, if_neg hcnd, hlkp3]
        rw [hr3, hf3]
        have hsum : n + (size - n) = size := by omega
        rw [hsum, RangeSet.markState_ranges, hIK, hIB, RangeSet.markState_capacity]
        show some (0, (⟨(rs.markState p0 size).capacity, rs.ranges, rs.free_map⟩ :
          RangeSet)) = _
        rw [RangeSet.markState_capacity]
      refine ⟨p0, _, halloc, ?_⟩
      show Heap.free ⟨data ++ List.replicate 0 0,
        ⟨(rs.markState p0 size).capacity,
         insertKey (p0 + n) (size - n) (rs.markState p0 size).ranges,
         RangeSet.insertBucket (size - n) (p0 + n) (rs.markState p0 size).free_map⟩⟩ p0 n =
        some ⟨data, rs⟩
      simp only [Heap.free, hfree1, List.replicate, List.append_nil,
        Nat.sub_zero, List.take_length]
  | none =>
    -- tier 3: fresh capacity is appended, then shrunk away again
    have halloc : Heap.alloc ⟨data, rs⟩ n =
        some (rs.capacity, ⟨data ++ List.replicate n 0,
          ⟨rs.capacity + n, rs.ranges, rs.free_map⟩⟩) := by
      cases hlast : lastEntry rs.ranges with
      | none => simp only [Heap.alloc, RangeSet.mark_first, hsb, hlast]
      | some e =>
        obtain ⟨tail, size⟩ := e
        have htail : ¬ tail + size = rs.capacity := by
          have := hnt _ (lastEntry_mem hlast)
          have h' : tail + size < rs.capacity := this
          omega
        simp only [Heap.alloc, RangeSet.mark_first, hsb, hlast, if_neg htail]
    have hfm : RangeSet.free_merge ⟨rs.capacity + n, rs.ranges, rs.free_map⟩
        rs.capacity n = some (rs.capacity, n,
          ⟨rs.capacity + n, rs.ranges, rs.free_map⟩) := by
      apply RangeSet.free_merge_no_neighbor
      · intro e he _
        have := hnt e he
        have h' : e.1 + e.2 < rs.capacity := this
        omega
      · intro e he hge
        have hb := hrinv.bounded e he
        have hp := hrinv.pos e he
        have h' : rs.capacity ≤ e.1 := hge
        omega
    have hfree1 : RangeSet.free ⟨rs.capacity + n, rs.ranges, rs.free_map⟩
        rs.capacity n = some (n, ⟨rs.capacity + n - n, rs.ranges, rs.free_map⟩) := by
      simp only [RangeSet.free, hfm, eq_self_iff_true, ite_true]
    refine ⟨rs.capacity, _, halloc, ?_⟩
    show Heap.free ⟨data ++ List.replicate n 0,
      ⟨rs.capacity + n, rs.ranges, rs.free_map⟩⟩ rs.capacity n = some ⟨data, rs⟩
    simp only [Heap.free, hfree1]
    have hd : (data ++ List.replicate n 0).take
        ((data ++ List.replicate n 0).length - n) = data := by
      rw [List.length_append, List.length_replicate]
      have hlen : data.length + n - n = data.length := by omega
      rw [hlen]
      exact List.take_left _ _
    rw [hd]
    have hcapn : rs.capacity + n - n = rs.capacity := by omega
    rw [hcapn]

end Heap

/-! ## Helper lemmas for the claim theorems -/

/-- Erasing a key cannot make another key's lookup succeed: the lookup of a
key that was absent, or of the erased key itself, is `none` afterwards. -/
theorem lookupKey_eraseKey_none {α : Type} {k k' : Nat} {l : List (Nat × α)}
    (hs : sortedKeys l) (h : lookupKey k l = none ∨ k = k') :
    lookupKey k (eraseKey k' l) = none := by
  cases hl : lookupKey k (eraseKey k' l) with
  | none => rfl
  | some v =>
    have hm := mem_of_lookupKey hl
    rw [mem_eraseKey hs] at hm
    rcases h with h | h
    · rw [lookupKey_eq_some_of_mem hs hm.1] at h
      exact Option.noConfusion h
    · exact absurd h hm.2

/-! ## The claims -/

/-- Claim C1, counterexample.  The spec's section-8 scenario — `alloc(10)`
returning pointer 0, `alloc(5)` returning pointer 10, `free(10, 5)`, then
`realloc(0, 10, 15)` — does NOT succeed in place: the realloc returns
pointer 10, not the original pointer 0.  The free of the second allocation
is a tail free, so `RangeSet::free` shrinks `capacity` back to 10 instead of
recording a free range, `is_free` finds nothing after the first allocation,
and `realloc` moves it. -/
theorem C1_counterexample :
    (Heap.new.alloc 10).map Prod.fst = some 0 ∧
    c1_scenario.map Prod.fst = some 10 ∧
    ¬ c1_scenario.map Prod.fst = some 0 := by decide

/-- Claim C1, amended.  After `alloc(10)`, `alloc(5)` and `free` of the
second allocation, the freed 5 slots are returned as a capacity shrink
(capacity 10, no tracked free range), so `realloc(0, 10, 15)` moves the
allocation and returns pointer 10.  In-place growth does occur when the
freed range is interior: with a third `alloc(1)` pinning the tail before the
free, the same realloc returns the original pointer 0. -/
theorem C1_amended_moves_unless_interior :
    c1_after_free = some ⟨List.replicate 10 0, ⟨10, [], []⟩⟩ ∧
    c1_scenario.map Prod.fst = some 10 ∧
    c1_blocked_scenario.map Prod.fst = some 0 := by decide

/-- Claim C2, counterexample.  Freeing a live 10-slot allocation with the
wrong size 5 is silently accepted: starting from the empty heap, `alloc(10)`
returns pointer 0, and `free(0, 5)` completes normally, leaving a bogus
5-slot free range inside the live allocation. -/
theorem C2_counterexample :
    (Heap.new.alloc 10).map Prod.fst = some 0 ∧
    c2_scenario = some ⟨List.replicate 10 0, ⟨10, [(0, 5)], [(5, [0])]⟩⟩ := by
  decide

/-- Claim C2, amended.  `RangeSet::free` (and hence `Heap::free`) performs
no size validation at all: on any state satisfying the representation
invariants, freeing any pointer that is not itself the start of a tracked
free range completes normally for EVERY size `s`, correct or not.  The
internal assertions can only fire when the pointer collides with a tracked
free range, never on a mere size mismatch. -/
theorem C2_amended_free_unchecked_size {rs : RangeSet} {p s : Nat}
    (hinv : rs.Inv) (hp : lookupKey p rs.ranges = none) :
    ∃ r rs', rs.free p s = some (r, rs') := by
  have hrs := hinv.ranges_sorted
  have phase2 : ∀ (P1 S1 : Nat) (rs1 : RangeSet), rs1.Inv →
      lookupKey P1 rs1.ranges = none →
      ∃ P S rsm, (match succEntry P1 rs1.ranges with
        | some (pointer_after, size) =>
          if P1 + S1 = pointer_after then
            match rs1.mark pointer_after with
            | some (_, rs2) => some (P1, S1 + size, rs2)
            | none => none
          else some (P1, S1, rs1)
        | none => some (P1, S1, rs1)) = some (P, S, rsm) ∧
        rsm.Inv ∧ lookupKey P rsm.ranges = none := by
    intro P1 S1 rs1 hinv1 hP1
    cases hse : succEntry P1 rs1.ranges with
    | none => exact ⟨P1, S1, rs1, by simp only [hse], hinv1, hP1⟩
    | some e2 =>
      obtain ⟨a2, l2⟩ := e2
      by_cases hc : P1 + S1 = a2
      · obtain ⟨hm2, _⟩ := succEntry_mem hse
        have hm2eq := RangeSet.mark_eq hinv1 hm2
        have hinv2 := RangeSet.mark_inv hinv1 hm2
        refine ⟨P1, S1 + l2, _, ?_, hinv2, ?_⟩
        · simp only [hse, if_pos hc, hm2eq]
        · rw [RangeSet.markState_ranges]
          exact lookupKey_eraseKey_none hinv1.ranges_sorted (Or.inl hP1)
      · exact ⟨P1, S1, rs1, by simp only [hse, if_neg hc], hinv1, hP1⟩
  have hmain : ∃ P S rsm, rs.free_merge p s = some (P, S, rsm) ∧
      rsm.Inv ∧ lookupKey P rsm.ranges = none := by
    cases hpe : predEntry p rs.ranges with
    | none =>
      obtain ⟨P, S, rsm, hh, hi, hl⟩ := phase2 p s rs hinv hp
      refine ⟨P, S, rsm, ?_, hi, hl⟩
      simp only [RangeSet.free_merge, hpe]
      exact hh
    | some e1 =>
      obtain ⟨a, la⟩ := e1
      by_cases hc1 : a + la = p
      · obtain ⟨hm1, _⟩ := predEntry_mem hpe
        have hm1eq := RangeSet.mark_eq hinv hm1
        have hinv1 := RangeSet.mark_inv hinv hm1
        have hP1 : lookupKey a (rs.markState a la).ranges = none := by
          rw [RangeSet.markState_ranges]
          exact lookupKey_eraseKey_none hrs (Or.inr rfl)
        obtain ⟨P, S, rsm, hh, hi, hl⟩ :=
          phase2 a (la + s) (rs.markState a la) hinv1 hP1
        refine ⟨P, S, rsm, ?_, hi, hl⟩
        simp only [RangeSet.free_merge, hpe, if_pos hc1, hm1eq]
        exact hh
      · obtain ⟨P, S, rsm, hh, hi, hl⟩ := phase2 p s rs hinv hp
        refine ⟨P, S, rsm, ?_, hi, hl⟩
        simp only [RangeSet.free_merge, hpe, if_neg hc1]
        exact hh
  obtain ⟨P, S, rsm, hmerge, hinvm, hPm⟩ := hmain
  by_cases htail : P + S = rsm.capacity
  · refine ⟨S, ⟨rsm.capacity - S, rsm.ranges, rsm.free_map⟩, ?_⟩
    simp only [RangeSet.free, hmerge, if_pos htail]
  · refine ⟨0, ⟨rsm.capacity, insertKey P S rsm.ranges,
      RangeSet.insertBucket S P rsm.free_map⟩, ?_⟩
    simp only [RangeSet.free, hmerge, if_neg htail, hPm]

/-- Claim C2, witness: on a reachable state with one 2-slot free range at
address 0 and capacity 8, freeing address 4 with the garbage size 17
completes normally. -/
theorem C2_witness :
    ∃ r rs', (⟨8, [(0, 2)], [(2, [0])]⟩ : RangeSet).free 4 17 =
      some (r, rs') := by
  have he1 : RangeSet.new.add_free_capacity 8 =
      some ⟨8, [(0, 8)], [(8, [0])]⟩ := by decide
  have he2 : (⟨8, [(0, 8)], [(8, [0])]⟩ : RangeSet).mark_first 8 =
      some ((0, 0), ⟨8, [], []⟩) := by decide
  have hs2 : (0 : Nat) < 2 := by decide
  have hcap2 : (0 : Nat) + 2 ≤ (⟨8, [], []⟩ : RangeSet).capacity := by decide
  have hd2 : (⟨8, [], []⟩ : RangeSet).disjointFromRanges 0 2 := by
    intro e he
    simp at he
  have he3 : (⟨8, [], []⟩ : RangeSet).free 0 2 =
      some (0, ⟨8, [(0, 2)], [(2, [0])]⟩) := by decide
  have hr : RangeSet.Reach ⟨8, [(0, 2)], [(2, [0])]⟩ :=
    RangeSet.Reach.free_op
      (RangeSet.Reach.mk_first
        (RangeSet.Reach.add_cap RangeSet.Reach.base he1) he2)
      hs2 hcap2 hd2 he3
  exact C2_amended_free_unchecked_size (RangeSet.reach_inv hr) (by decide)

/-- Claim C3: on any invariant-satisfying state holding a free range of at
least the requested size, `mark_first` returns extra capacity 0 and the
lowest address among the free ranges of the smallest sufficient size
(best-fit, address-ordered tie-break), allocating exactly the requested
prefix. -/
theorem C3_best_fit {rs : RangeSet} {n a0 l0 : Nat} (hinv : rs.Inv)
    (hmem : (a0, l0) ∈ rs.ranges) (hle : n ≤ l0) :
    ∃ p size rs', (p, size) ∈ rs.ranges ∧ n ≤ size ∧
      (∀ e ∈ rs.ranges, n ≤ e.2 → size ≤ e.2) ∧
      (∀ e ∈ rs.ranges, e.2 = size → p ≤ e.1) ∧
      rs.mark_first n = some ((p, 0), rs') ∧
      (∀ x, rs'.allocAddr x ↔ rs.allocAddr x ∨ (p ≤ x ∧ x < p + n)) := by
  have hb0 : a0 ∈ rs.bucketOf l0 := hinv.mirror_rf _ hmem
  have hb0ne : rs.bucketOf l0 ≠ [] := by
    intro hc
    rw [hc] at hb0
    simp at hb0
  have hbf0 : (l0, rs.bucketOf l0) ∈ rs.free_map :=
    hinv.bucketOf_mem_free hb0ne
  have hsome : (succEntry n rs.free_map).isSome := succEntry_isSome hbf0 hle
  cases hsb : succEntry n rs.free_map with
  | none =>
    rw [hsb] at hsome
    simp at hsome
  | some e =>
    obtain ⟨size, bucket⟩ := e
    obtain ⟨p0, hhead, hp0r, hnsize⟩ := RangeSet.tier1_found hinv hsb
    obtain ⟨rs'', hms, hinv'', hcaple, hsubf, halloc, hntc⟩ :=
      RangeSet.mark_smaller_spec hinv hp0r hnsize
    refine ⟨p0, size, rs'', hp0r, hnsize, ?_, ?_, ?_, halloc⟩
    · intro e he hne
      have hbe : e.1 ∈ rs.bucketOf e.2 := hinv.mirror_rf _ he
      have hbene : rs.bucketOf e.2 ≠ [] := by
        intro hc
        rw [hc] at hbe
        simp at hbe
      have hbfe : (e.2, rs.bucketOf e.2) ∈ rs.free_map :=
        hinv.bucketOf_mem_free hbene
      exact succEntry_min hinv.free_sorted hsb _ hbfe hne
    · intro e he hesz
      obtain ⟨hbm, _⟩ := succEntry_mem hsb
      have hbe : e.1 ∈ rs.bucketOf e.2 := hinv.mirror_rf _ he
      rw [hesz] at hbe
      have hbeq : rs.bucketOf size = bucket := by
        unfold RangeSet.bucketOf
        rw [lookupKey_eq_some_of_mem hinv.free_sorted hbm]
        rfl
      rw [hbeq] at hbe
      have hbs : bucket.Pairwise (· < ·) := hinv.buckets_sorted _ hbm
      cases hb : bucket with
      | nil =>
        rw [hb] at hhead
        exact Option.noConfusion hhead
      | cons q rest =>
        rw [hb] at hhead hbe hbs
        simp only [List.head?] at hhead
        injection hhead with hq
        obtain ⟨hq_all, _⟩ := List.pairwise_cons.mp hbs
        rcases List.mem_cons.mp hbe with h1 | h1
        · omega
        · have := hq_all e.1 h1
          omega
    · simp only [RangeSet.mark_first, hsb, hhead, hms]

/-- Claim C3, witness: on the reachable state with free ranges (0,2) and
(4,2) and capacity 8, requesting 2 slots is served at some pointer with
extra capacity 0 by a sufficient bucket. -/
theorem C3_witness :
    ∃ p size rs',
      (⟨8, [(0, 2), (4, 2)], [(2, [0, 4])]⟩ : RangeSet).mark_first 2 =
        some ((p, 0), rs') ∧ 2 ≤ size := by
  have he1 : RangeSet.new.add_free_capacity 8 =
      some ⟨8, [(0, 8)], [(8, [0])]⟩ := by decide
  have he2 : (⟨8, [(0, 8)], [(8, [0])]⟩ : RangeSet).mark_first 8 =
      some ((0, 0), ⟨8, [], []⟩) := by decide
  have hs2 : (0 : Nat) < 2 := by decide
  have hcap2 : (0 : Nat) + 2 ≤ (⟨8, [], []⟩ : RangeSet).capacity := by decide
  have hd2 : (⟨8, [], []⟩ : RangeSet).disjointFromRanges 0 2 := by
    intro e he
    simp at he
  have he3 : (⟨8, [], []⟩ : RangeSet).free 0 2 =
      some (0, ⟨8, [(0, 2)], [(2, [0])]⟩) := by decide
  have hs4 : (0 : Nat) < 2 := by decide
  have hcap4 : (4 : Nat) + 2 ≤ (⟨8, [(0, 2)], [(2, [0])]⟩ : RangeSet).capacity := by
    decide
  have hd4 : (⟨8, [(0, 2)], [(2, [0])]⟩ : RangeSet).disjointFromRanges 4 2 := by
    intro e he
    simp at he
    subst he
    right
    decide
  have he4 : (⟨8, [(0, 2)], [(2, [0])]⟩ : RangeSet).free 4 2 =
      some (0, ⟨8, [(0, 2), (4, 2)], [(2, [0, 4])]⟩) := by decide
  have hr : RangeSet.Reach ⟨8, [(0, 2), (4, 2)], [(2, [0, 4])]⟩ :=
    RangeSet.Reach.free_op
      (RangeSet.Reach.free_op
        (RangeSet.Reach.mk_first
          (RangeSet.Reach.add_cap RangeSet.Reach.base he1) he2)
        hs2 hcap2 hd2 he3)
      hs4 hcap4 hd4 he4
  obtain ⟨p, size, rs', _, hsz, _, _, heq, _⟩ :=
    C3_best_fit (RangeSet.reach_inv hr) (by decide : ((0 : Nat), (2 : Nat)) ∈
      (⟨8, [(0, 2), (4, 2)], [(2, [0, 4])]⟩ : RangeSet).ranges)
      (by decide : 2 ≤ 2)
  exact ⟨p, size, rs', heq, hsz⟩

/-- Claim C4: whenever the merged range produced by the coalescing phase of
`RangeSet::free` ends exactly at the capacity, `free` does not insert it
into either index: it shrinks the capacity by the merged length and returns
that length (and coalescing itself never changes the capacity).  In
particular, on the empty heap, allocating a single 10-slot region filling
the whole capacity and freeing it with the same size brings capacity and
backing storage length back to 0 with no tracked free range. -/
theorem C4_tail_shrink :
    (∀ (rs : RangeSet) (p s P S : Nat) (rsm : RangeSet),
      rs.free_merge p s = some (P, S, rsm) → P + S = rsm.capacity →
      rs.free p s = some (S, ⟨rsm.capacity - S, rsm.ranges, rsm.free_map⟩) ∧
        rsm.capacity = rs.capacity) ∧
    c4_scenario = some ⟨[], ⟨0, [], []⟩⟩ := by
  constructor
  · intro rs p s P S rsm hmerge htail
    refine ⟨?_, RangeSet.free_merge_capacity hmerge⟩
    simp only [RangeSet.free, hmerge, if_pos htail]
  · decide

/-- Claim C4, witness: on the state with capacity 10 and free range (0,4),
freeing (4,6) coalesces into the tail range (0,10), which is converted into
a full capacity shrink. -/
theorem C4_witness :
    (⟨10, [(0, 4)], [(4, [0])]⟩ : RangeSet).free 4 6 =
      some (10, ⟨0, [], []⟩) ∧ (10 : Nat) = 10 :=
  C4_tail_shrink.1 ⟨10, [(0, 4)], [(4, [0])]⟩ 4 6 0 10 ⟨10, [], []⟩
    (by decide) (by decide)

/-- Claim C5: in every RangeSet state reachable by the public operations,
the by-address index and the by-length index mirror each other — every
range appears in its length's bucket, every bucket member is a range of
that length — and no stored bucket is empty. -/
theorem C5_mirror_invariant {rs : RangeSet} (hr : rs.Reach) :
    (∀ e ∈ rs.ranges, e.1 ∈ rs.bucketOf e.2) ∧
    (∀ b ∈ rs.free_map, ∀ q ∈ b.2, (q, b.1) ∈ rs.ranges) ∧
    (∀ b ∈ rs.free_map, b.2 ≠ []) := by
  have hinv := RangeSet.reach_inv hr
  exact ⟨hinv.mirror_rf, hinv.mirror_fr, hinv.buckets_ne⟩

/-- Claim C5, witness: the state reached by adding 8 slots of free capacity
to the empty RangeSet has its single range (0,8) mirrored in bucket 8. -/
theorem C5_witness :
    (0 ∈ (⟨8, [(0, 8)], [(8, [0])]⟩ : RangeSet).bucketOf 8) ∧
    ((0, 8) ∈ (⟨8, [(0, 8)], [(8, [0])]⟩ : RangeSet).ranges) := by
  have he1 : RangeSet.new.add_free_capacity 8 =
      some ⟨8, [(0, 8)], [(8, [0])]⟩ := by decide
  have hr : RangeSet.Reach ⟨8, [(0, 8)], [(8, [0])]⟩ :=
    RangeSet.Reach.add_cap RangeSet.Reach.base he1
  exact ⟨(C5_mirror_invariant hr).1 (0, 8) (by decide),
    (C5_mirror_invariant hr).2.1 (8, [0]) (by decide) 0 (by decide)⟩

/-- Claim C6: in every RangeSet state reachable by the public operations, no
two tracked free ranges are adjacent or overlapping: for entries (a1,l1)
and (a2,l2) with a1 < a2, a1 + l1 < a2 holds strictly. -/
theorem C6_no_adjacency {rs : RangeSet} (hr : rs.Reach) :
    ∀ x ∈ rs.ranges, ∀ y ∈ rs.ranges, x.1 < y.1 → x.1 + x.2 < y.1 :=
  (RangeSet.reach_inv hr).no_adj

/-- Claim C6, witness: in the reachable state with free ranges (0,2) and
(4,2), the first range ends strictly before the second starts. -/
theorem C6_witness :
    ((0, 2) ∈ (⟨8, [(0, 2), (4, 2)], [(2, [0, 4])]⟩ : RangeSet).ranges) ∧
    (0 : Nat) + 2 < 4 := by
  have he1 : RangeSet.new.add_free_capacity 8 =
      some ⟨8, [(0, 8)], [(8, [0])]⟩ := by decide
  have he2 : (⟨8, [(0, 8)], [(8, [0])]⟩ : RangeSet).mark_first 8 =
      some ((0, 0), ⟨8, [], []⟩) := by decide
  have hs2 : (0 : Nat) < 2 := by decide
  have hcap2 : (0 : Nat) + 2 ≤ (⟨8, [], []⟩ : RangeSet).capacity := by decide
  have hd2 : (⟨8, [], []⟩ : RangeSet).disjointFromRanges 0 2 := by
    intro e he
    simp at he
  have he3 : (⟨8, [], []⟩ : RangeSet).free 0 2 =
      some (0, ⟨8, [(0, 2)], [(2, [0])]⟩) := by decide
  have hs4 : (0 : Nat) < 2 := by decide
  have hcap4 : (4 : Nat) + 2 ≤ (⟨8, [(0, 2)], [(2, [0])]⟩ : RangeSet).capacity := by
    decide
  have hd4 : (⟨8, [(0, 2)], [(2, [0])]⟩ : RangeSet).disjointFromRanges 4 2 := by
    intro e he
    simp at he
    subst he
    right
    decide
  have he4 : (⟨8, [(0, 2)], [(2, [0])]⟩ : RangeSet).free 4 2 =
      some (0, ⟨8, [(0, 2), (4, 2)], [(2, [0, 4])]⟩) := by decide
  have hr : RangeSet.Reach ⟨8, [(0, 2), (4, 2)], [(2, [0, 4])]⟩ :=
    RangeSet.Reach.free_op
      (RangeSet.Reach.free_op
        (RangeSet.Reach.mk_first
          (RangeSet.Reach.add_cap RangeSet.Reach.base he1) he2)
        hs2 hcap2 hd2 he3)
      hs4 hcap4 hd4 he4
  exact ⟨by decide,
    C6_no_adjacency hr (0, 2) (by decide) (4, 2) (by decide) (by decide)⟩

/-- Claim C7: in every Heap state reachable from `Heap::new` by the public
operations, the backing storage length equals the RangeSet capacity. -/
theorem C7_data_length_eq_capacity {h : Heap} (hr : h.Reachable) :
    h.data.length = h.free_set.capacity :=
  (Heap.reachable_inv hr).len_eq

/-- Claim C7, witness: the heap reached by `alloc(3)` from the empty heap
has 3 slots of backing storage and capacity 3. -/
theorem C7_witness :
    (⟨[0, 0, 0], ⟨3, [], []⟩⟩ : Heap).data.length =
      (⟨[0, 0, 0], ⟨3, [], []⟩⟩ : Heap).free_set.capacity := by
  have hp3 : (0 : Nat) < 3 := by decide
  have he : Heap.new.alloc 3 = some (0, ⟨[0, 0, 0], ⟨3, [], []⟩⟩) := by decide
  exact C7_data_length_eq_capacity
    (Heap.Reachable.alloc Heap.Reachable.base hp3 he)

/-- Claim C8: on every reachable Heap state and every n > 0, `alloc(n)`
returning pointer p followed immediately by `free(p, n)` restores the heap
exactly — the same RangeSet (both indices and capacity) and the same
backing storage. -/
theorem C8_alloc_free_roundtrip {h : Heap} (hr : h.Reachable) {n : Nat}
    (hn : 0 < n) :
    ∃ p h₁, h.alloc n = some (p, h₁) ∧ h₁.free p n = some h :=
  Heap.alloc_free_roundtrip (Heap.reachable_inv hr) hn

/-- Claim C8, witness: on the reachable heap with capacity 8 and free range
(0,4), `alloc(3)` followed by `free` of the returned pointer with size 3
restores the heap exactly. -/
theorem C8_witness :
    ∃ p h₁,
      (⟨[0, 0, 0, 0, 0, 0, 0, 0], ⟨8, [(0, 4)], [(4, [0])]⟩⟩ : Heap).alloc 3 =
        some (p, h₁) ∧
      h₁.free p 3 =
        some ⟨[0, 0, 0, 0, 0, 0, 0, 0], ⟨8, [(0, 4)], [(4, [0])]⟩⟩ := by
  have hp4 : (0 : Nat) < 4 := by decide
  have hp3 : (0 : Nat) < 3 := by decide
  have he1 : Heap.new.alloc 4 = some (0, ⟨[0, 0, 0, 0], ⟨4, [], []⟩⟩) := by
    decide
  have he2 : (⟨[0, 0, 0, 0], ⟨4, [], []⟩⟩ : Heap).alloc 4 =
      some (4, ⟨[0, 0, 0, 0, 0, 0, 0, 0], ⟨8, [], []⟩⟩) := by decide
  have hv : Heap.ValidFree ⟨[0, 0, 0, 0, 0, 0, 0, 0], ⟨8, [], []⟩⟩ 0 4 := by
    refine ⟨hp4, by decide, ?_⟩
    intro e he
    simp at he
  have he3 : (⟨[0, 0, 0, 0, 0, 0, 0, 0], ⟨8, [], []⟩⟩ : Heap).free 0 4 =
      some ⟨[0, 0, 0, 0, 0, 0, 0, 0], ⟨8, [(0, 4)], [(4, [0])]⟩⟩ := by decide
  exact C8_alloc_free_roundtrip
    (Heap.Reachable.free
      (Heap.Reachable.alloc
        (Heap.Reachable.alloc Heap.Reachable.base hp4 he1) hp4 he2)
      hv he3)
    hp3

/-- Claim C9 (implicit): in every reachable Heap state, the RangeSet never
tracks a free range whose end equals the capacity, and consequently the
tail-extension tier of `mark_first` is unreachable through the Heap
interface: whenever `mark_first` returns a positive extra capacity, the
returned pointer is the old capacity itself, i.e. the allocation came from
the append tier, not from extending a tracked tail range. -/
theorem C9_no_tail_free_range {h : Heap} (hr : h.Reachable) :
    (∀ e ∈ h.free_set.ranges, e.1 + e.2 ≠ h.free_set.capacity) ∧
    (∀ n p extra rs', 0 < n →
      h.free_set.mark_first n = some ((p, extra), rs') →
      0 < extra → p = h.free_set.capacity) := by
  have hinv := Heap.reachable_inv hr
  constructor
  · intro e he
    have h' : e.1 + e.2 < h.free_set.capacity := hinv.no_tail e he
    omega
  · intro n p extra rs' hn heq hex
    obtain ⟨p', extra', rs'', heq', _, _, _, _, _, hpe⟩ :=
      RangeSet.mark_first_spec hinv.rinv hinv.no_tail hn
    rw [heq] at heq'
    injection heq' with h0
    injection h0 with h1 h2
    injection h1 with h1a h1b
    rw [h1a]
    rw [h1b] at hex
    exact hpe hex

/-- Claim C9, witness: on the reachable heap with capacity 2 and no free
range, `mark_first 5` returns pointer 2 with extra capacity 5, and the
pointer equals the old capacity. -/
theorem C9_witness :
    (⟨[0, 0], ⟨2, [], []⟩⟩ : Heap).free_set.mark_first 5 =
      some ((2, 5), ⟨7, [], []⟩) ∧
    (2 : Nat) = (⟨[0, 0], ⟨2, [], []⟩⟩ : Heap).free_set.capacity := by
  have hp2 : (0 : Nat) < 2 := by decide
  have he : Heap.new.alloc 2 = some (0, ⟨[0, 0], ⟨2, [], []⟩⟩) := by decide
  have hr := Heap.Reachable.alloc Heap.Reachable.base hp2 he
  have hm : (⟨[0, 0], ⟨2, [], []⟩⟩ : Heap).free_set.mark_first 5 =
      some ((2, 5), ⟨7, [], []⟩) := by decide
  exact ⟨hm, (C9_no_tail_free_range hr).2 5 2 5 ⟨7, [], []⟩ (by decide) hm
    (by decide)⟩

/-- Claim C10 (implicit): whenever `mark_first` reaches its tail-extension
tier — the by-length search found nothing and the last range is a tail
range — the tail range's size is strictly below the request, so the
`slots - size` subtraction cannot underflow, the returned extra capacity
`n - l` is strictly positive, and the tier succeeds growing the capacity by
exactly that amount. -/
theorem C10_tail_tier_no_underflow {rs : RangeSet} {n a l : Nat}
    (hinv : rs.Inv) (hnone : succEntry n rs.free_map = none)
    (hlast : lastEntry rs.ranges = some (a, l)) (htail : a + l = rs.capacity) :
    l < n ∧ 0 < n - l ∧ ∃ rs', rs.mark_first n = some ((a, n - l), rs') ∧
      rs'.capacity = rs.capacity + (n - l) := by
  have hm : (a, l) ∈ rs.ranges := lastEntry_mem hlast
  have hab : a ∈ rs.bucketOf l := hinv.mirror_rf _ hm
  have habne : rs.bucketOf l ≠ [] := by
    intro hc
    rw [hc] at hab
    simp at hab
  have hbf : (l, rs.bucketOf l) ∈ rs.free_map := hinv.bucketOf_mem_free habne
  have hlt : l < n := succEntry_none hnone _ hbf
  refine ⟨hlt, by omega, ?_⟩
  have hm1 := RangeSet.mark_eq hinv hm
  refine ⟨⟨(rs.markState a l).capacity + (n - l), (rs.markState a l).ranges,
    (rs.markState a l).free_map⟩, ?_, ?_⟩
  · simp only [RangeSet.mark_first, hnone, hlast, if_pos htail, hm1]
  · show (rs.markState a l).capacity + (n - l) = rs.capacity + (n - l)
    rw [RangeSet.markState_capacity]

/-- Claim C10, witness: on the state with capacity 8 whose single free
range (0,8) is a tail range, requesting 9 slots takes the tail-extension
tier: 8 < 9, the extra capacity 9 - 8 = 1 is positive, and the new capacity
is 8 + 1. -/
theorem C10_witness :
    8 < 9 ∧ 0 < 9 - 8 ∧
    ∃ rs', (⟨8, [(0, 8)], [(8, [0])]⟩ : RangeSet).mark_first 9 =
      some ((0, 9 - 8), rs') ∧ rs'.capacity = 8 + (9 - 8) := by
  have he1 : RangeSet.new.add_free_capacity 8 =
      some ⟨8, [(0, 8)], [(8, [0])]⟩ := by decide
  have hinv := RangeSet.reach_inv
    (RangeSet.Reach.add_cap RangeSet.Reach.base he1)
  exact C10_tail_tier_no_underflow hinv (by decide) (by decide) (by decide)

end Flex
